import Mathlib

/-!
Verification development for the DHCPv4 option-value codec in
`src/libs/config/src/wire/v4.rs`: the tagged option value model (`Opt`),
the value encoder (`write_opt`), the set assembler / decoder bridge
(`Opts.deserialize`), and the reverse normalizer (`to_opt`,
`Opts.serialize`).

Machine bytes are modelled as `Nat` with explicit `% 256` at the points
where the Rust code performs a `u8` write; byte buffers are `List Nat`.
External collaborators (the canonical decoder of `dhcproto`, the
long-option chunk writer, the base64/hex codecs and the DNS name
encoder) are modelled from the spec where marked.
-/

namespace DoraWire

/-- A byte buffer: an append-only sequence of byte values. -/
abbrev Bytes := List Nat

/-- Big-endian bytes of a 16-bit write (`Encoder::write_u16`). -/
def u16be (n : Nat) : Bytes := [n / 2 ^ 8 % 256, n % 256]

/-- Big-endian bytes of a 32-bit write (`Encoder::write_u32`). -/
def u32be (n : Nat) : Bytes := [n / 2 ^ 24 % 256, n / 2 ^ 16 % 256, n / 2 ^ 8 % 256, n % 256]

/-- Big-endian bytes of a signed 32-bit write (`Encoder::write_i32`),
two's complement. -/
def i32be (n : Int) : Bytes := u32be (n % 2 ^ 32).toNat

/-- An IPv4 address as its four network-order octets. -/
structure Ipv4Addr where
  a : Nat
  b : Nat
  c : Nat
  d : Nat
deriving DecidableEq, Repr

/-- Octets of an address, in network order (`Ipv4Addr::octets`). -/
def Ipv4Addr.octets (ip : Ipv4Addr) : Bytes := [ip.a, ip.b, ip.c, ip.d]

/-- The `u32` value of an address (`u32::from(ip)`), big-endian combination
of the octets. -/
def Ipv4Addr.toU32 (ip : Ipv4Addr) : Nat := ((ip.a * 256 + ip.b) * 256 + ip.c) * 256 + ip.d

/-- All four octets are in byte range. -/
def Ipv4Addr.wf (ip : Ipv4Addr) : Bool :=
  decide (ip.a < 256) && decide (ip.b < 256) && decide (ip.c < 256) && decide (ip.d < 256)

/-- Worker for `chunkList`: `acc` is the current chunk reversed, `k` the
remaining capacity of the current chunk. -/
def chunkGo (n : Nat) : List α → List α → Nat → List (List α)
  | [], acc, _ => [acc.reverse]
  | x :: xs, acc, 0 => acc.reverse :: chunkGo n xs [x] (n - 1)
  | x :: xs, acc, k + 1 => chunkGo n xs (x :: acc) k

/-- Split a list into consecutive chunks of at most `n` elements; the empty
list yields one empty chunk, so at least one chunk is always produced. -/
def chunkList (n : Nat) (l : List α) : List (List α) := chunkGo n l [] n

/-- Modelled from the spec: the external long-option chunk writer for raw
byte payloads (`v4::encode_long_opt_bytes`, §6).  It splits the payload at
the 255-byte single-TLV ceiling and emits one or more `code, length,
payload` records, repeating the code on each continuation record; an empty
payload emits one zero-length record. -/
def encode_long_opt_bytes (code : Nat) (bytes : Bytes) (buf : Bytes) : Bytes :=
  buf ++ (chunkList 255 bytes).flatMap fun p => code % 256 :: p.length :: p

/-- Modelled from the spec: the external long-option chunk writer for
fixed-size elements (`v4::encode_long_opt_chunks`, §6), instantiated at
element size 4 with the `write_u32` element callback used by the source.
Chunks hold at most 63 four-byte elements so each record payload stays
within the 255-byte ceiling. -/
def encode_long_opt_chunks (code : Nat) (list : List Ipv4Addr) (buf : Bytes) : Bytes :=
  buf ++ (chunkList 63 list).flatMap fun ch =>
    code % 256 :: 4 * ch.length :: ch.flatMap fun ip => u32be ip.toU32

/-- Error of the external base64 decoder (`base64::DecodeError`); the
STANDARD_NO_PAD engine reports the first byte outside the unpadded
standard alphabet, or an impossible input length. -/
inductive B64Err where
  | InvalidByte (offset byte : Nat)
  | InvalidLength (len : Nat)
  | InvalidLastSymbol (offset byte : Nat)
deriving DecidableEq, Repr

/-- Value of one character of the standard base64 alphabet (`A-Z`, `a-z`,
`0-9`, `+`, `/`); `=` and everything else is rejected. -/
def b64Val (c : Nat) : Option Nat :=
  if 65 ≤ c ∧ c ≤ 90 then some (c - 65)
  else if 97 ≤ c ∧ c ≤ 122 then some (c - 71)
  else if 48 ≤ c ∧ c ≤ 57 then some (c + 4)
  else if c = 43 then some 62
  else if c = 47 then some 63
  else none

/-- Worker for `b64decode`: decode whole 4-character groups, then a final
group of 2 or 3 characters; a trailing group of 1 cannot occur after the
length pre-check. -/
def b64Go (off : Nat) : Bytes → Except B64Err Bytes
  | [] => .ok []
  | [a, b] =>
    match b64Val a, b64Val b with
    | some va, some vb =>
      if vb % 16 = 0 then .ok [va * 4 + vb / 16] else .error (.InvalidLastSymbol (off + 1) b)
    | none, _ => .error (.InvalidByte off a)
    | some _, none => .error (.InvalidByte (off + 1) b)
  | [a, b, c] =>
    match b64Val a, b64Val b, b64Val c with
    | some va, some vb, some vc =>
      if vc % 4 = 0 then .ok [va * 4 + vb / 16, vb % 16 * 16 + vc / 4]
      else .error (.InvalidLastSymbol (off + 2) c)
    | none, _, _ => .error (.InvalidByte off a)
    | some _, none, _ => .error (.InvalidByte (off + 1) b)
    | some _, some _, none => .error (.InvalidByte (off + 2) c)
  | [_] => .error (.InvalidLength (off + 1))
  | a :: b :: c :: d :: rest =>
    match b64Val a, b64Val b, b64Val c, b64Val d with
    | some va, some vb, some vc, some vd => do
      let tail ← b64Go (off + 4) rest
      .ok ((va * 4 + vb / 16) :: (vb % 16 * 16 + vc / 4) :: (vc % 4 * 64 + vd) :: tail)
    | none, _, _, _ => .error (.InvalidByte off a)
    | some _, none, _, _ => .error (.InvalidByte (off + 1) b)
    | some _, some _, none, _ => .error (.InvalidByte (off + 2) c)
    | some _, some _, some _, none => .error (.InvalidByte (off + 3) d)

/-- Modelled from the spec: the external base64 decoder with the unpadded
standard engine (`base64::engine::general_purpose::STANDARD_NO_PAD`,
§4.1/§6); an input whose length is 1 mod 4 is rejected outright. -/
def b64decode (s : Bytes) : Except B64Err Bytes :=
  if s.length % 4 = 1 then .error (.InvalidLength s.length) else b64Go 0 s

/-- Error of the external hex decoder (`hex::FromHexError`). -/
inductive HexErr where
  | InvalidHexCharacter (c index : Nat)
  | OddLength
deriving DecidableEq, Repr

/-- Value of one hexadecimal digit character (both cases accepted). -/
def hexVal (c : Nat) : Option Nat :=
  if 48 ≤ c ∧ c ≤ 57 then some (c - 48)
  else if 97 ≤ c ∧ c ≤ 102 then some (c - 87)
  else if 65 ≤ c ∧ c ≤ 70 then some (c - 55)
  else none

/-- Worker for `hexDecode`: decode digit pairs. -/
def hexGo (idx : Nat) : Bytes → Except HexErr Bytes
  | [] => .ok []
  | [_] => .error .OddLength
  | a :: b :: rest =>
    match hexVal a, hexVal b with
    | some va, some vb => do
      let tail ← hexGo (idx + 2) rest
      .ok ((va * 16 + vb) :: tail)
    | none, _ => .error (.InvalidHexCharacter a idx)
    | some _, none => .error (.InvalidHexCharacter b (idx + 1))

/-- Modelled from the spec: the external hex decoder (`hex::decode`,
§4.1/§6); an odd-length input is rejected outright. -/
def hexDecode (s : Bytes) : Except HexErr Bytes :=
  if s.length % 2 = 1 then .error .OddLength else hexGo 0 s

/-- A domain name as a sequence of labels, each a byte string. -/
abbrev Name := List Bytes

/-- Splits a byte string at every dot (byte 46). -/
def splitDots (s : Bytes) : List Bytes :=
  s.foldr (fun c acc =>
    match acc with
    | cur :: done => if c = 46 then [] :: cur :: done else (c :: cur) :: done
    | [] => [[c]]) [[]]

/-- Modelled from the spec: parsing an authored domain-name string
(`str::parse::<rr::Name>`, §4.1/§6).  The name is dot-separated labels of
1 to 63 bytes with an optional trailing dot; the empty string and empty
interior labels are unparseable. -/
def parseName (s : Bytes) : Except Bytes Name :=
  if s = [] then .error s
  else if s = [46] then .ok []
  else
    let parts := splitDots s
    let parts := if parts.getLast? = some [] then parts.dropLast else parts
    if parts.all fun l => l.length ≥ 1 && l.length ≤ 63 then .ok parts else .error s

/-- Modelled from the spec: the external DNS wire encoder for one name
(`trust_dns` `Name::emit`, §6): each label length-prefixed, terminated by
the zero-length root label. -/
def emitName (n : Name) : Bytes := (n.flatMap fun l => l.length :: l) ++ [0]

/-- Lowercase hex digit character for a nibble. -/
def hexDigit (n : Nat) : Nat := if n < 10 then 48 + n else 87 + n

/-- Modelled from the spec: the external hex encoder (`hex::encode`),
two lowercase digits per byte. -/
def hexEncode (s : Bytes) : Bytes := s.flatMap fun b => [hexDigit (b / 16), hexDigit (b % 16)]

/-- The tagged option value model: the intermediate `Opt` enum of the
source (`#[serde(tag = "type", content = "value")]`), one constructor per
authored value kind.  Strings are kept as their byte sequences. -/
inductive Opt where
  | Ip (ip : Ipv4Addr)
  | IpList (l : List Ipv4Addr)
  | DomainList (l : List Bytes)
  | U8 (n : Nat)
  | U16 (n : Nat)
  | U32 (n : Nat)
  | I32 (n : Int)
  | Bool (b : Bool)
  | Str (s : Bytes)
  | B64 (s : Bytes)
  | Hex (s : Bytes)
  | SubOption (m : List (Nat × Opt))
deriving Repr

/-- Encoding error of `write_opt`; in the source these are `anyhow`
errors propagated with `?` from the base64/hex decoders and the domain
name parser — none of them carries the option code. -/
inductive EncErr where
  | b64 (e : B64Err)
  | hexE (e : HexErr)
  | nameE (s : Bytes)
deriving DecidableEq, Repr

/-- DNS-format encoding of the authored domain list: each name parsed
then emitted into one shared buffer (the `BinEncoder` loop of the
`Opt::DomainList` arm of `write_opt`). -/
def encodeNames : List Bytes → Except EncErr Bytes
  | [] => .ok []
  | s :: rest => do
    match parseName s with
    | .error e => .error (.nameE e)
    | .ok labels => do
      let tail ← encodeNames rest
      .ok (emitName labels ++ tail)

mutual

/-- The Value Encoder `write_opt` of the source: renders one tagged value
under one option code into TLV bytes appended to the buffer `buf` (the
Rust encoder mutates a shared output buffer; here the extended buffer is
returned). -/
def write_opt (buf : Bytes) (code : Nat) : Opt → Except EncErr Bytes
  | .Ip ip => .ok (buf ++ [code % 256, 4] ++ ip.octets)
  | .IpList list => .ok (encode_long_opt_chunks code list buf)
  | .DomainList list => do
    let nbuf ← encodeNames list
    .ok (encode_long_opt_bytes code nbuf buf)
  | .Str s => .ok (encode_long_opt_bytes code s buf)
  | .U32 n => .ok (buf ++ [code % 256, 4] ++ u32be n)
  | .I32 n => .ok (buf ++ [code % 256, 4] ++ i32be n)
  | .U8 n => .ok (buf ++ [code % 256, 1, n % 256])
  | .Bool b => .ok (buf ++ [code % 256, 1, if b then 1 else 0])
  | .U16 n => .ok (buf ++ [code % 256, 2] ++ u16be n)
  | .B64 s =>
    match b64decode s with
    | .error e => .error (.b64 e)
    | .ok bytes => .ok (encode_long_opt_bytes code bytes buf)
  | .Hex s =>
    match hexDecode s with
    | .error e => .error (.hexE e)
    | .ok bytes => .ok (encode_long_opt_bytes code bytes buf)
  | .SubOption sub_opts => do
    let sub_buf ← write_opts [] sub_opts
    .ok (encode_long_opt_bytes code sub_buf buf)

/-- The entry loop of the source's `Deserialize for Opts` (and of the
`Opt::SubOption` arm): encode each `(code, opt)` pair in iteration order
into one shared buffer. -/
def write_opts (buf : Bytes) : List (Nat × Opt) → Except EncErr Bytes
  | [] => .ok buf
  | (code, opt) :: rest => do
    let b ← write_opt buf code opt
    write_opts b rest

end

set_option maxHeartbeats 3200000 in
/-- The canonical typed option (`dhcproto::v4::DhcpOption`), restricted to
the variants named by the source's `to_opt` match, plus `DomainSearch` as
a representative of the decodable variants that fall to the catch-all
arm, plus the `Pad`/`End` pseudo-options and the `Unknown` raw fallback. -/
inductive DhcpOption where
  | Pad
  | End
  | SubnetMask (addr : Ipv4Addr)
  | SwapServer (addr : Ipv4Addr)
  | BroadcastAddr (addr : Ipv4Addr)
  | RouterSolicitationAddr (addr : Ipv4Addr)
  | RequestedIpAddress (addr : Ipv4Addr)
  | ServerIdentifier (addr : Ipv4Addr)
  | SubnetSelection (addr : Ipv4Addr)
  | TimeServer (ips : List Ipv4Addr)
  | NameServer (ips : List Ipv4Addr)
  | Router (ips : List Ipv4Addr)
  | DomainNameServer (ips : List Ipv4Addr)
  | LogServer (ips : List Ipv4Addr)
  | QuoteServer (ips : List Ipv4Addr)
  | LprServer (ips : List Ipv4Addr)
  | ImpressServer (ips : List Ipv4Addr)
  | ResourceLocationServer (ips : List Ipv4Addr)
  | XFontServer (ips : List Ipv4Addr)
  | XDisplayManager (ips : List Ipv4Addr)
  | NIS (ips : List Ipv4Addr)
  | NTPServers (ips : List Ipv4Addr)
  | NetBiosNameServers (ips : List Ipv4Addr)
  | NetBiosDatagramDistributionServer (ips : List Ipv4Addr)
  | TimeOffset (num : Int)
  | DefaultTcpTtl (num : Nat)
  | DefaultIpTtl (num : Nat)
  | OptionOverload (num : Nat)
  | NetBiosNodeType (ntype : Nat)
  | IpForwarding (b : Bool)
  | NonLocalSrcRouting (b : Bool)
  | AllSubnetsLocal (b : Bool)
  | PerformMaskDiscovery (b : Bool)
  | MaskSupplier (b : Bool)
  | PerformRouterDiscovery (b : Bool)
  | EthernetEncapsulation (b : Bool)
  | TcpKeepaliveGarbage (b : Bool)
  | ArpCacheTimeout (num : Nat)
  | TcpKeepaliveInterval (num : Nat)
  | AddressLeaseTime (num : Nat)
  | Renewal (num : Nat)
  | Rebinding (num : Nat)
  | Hostname (s : Bytes)
  | MeritDumpFile (s : Bytes)
  | DomainName (s : Bytes)
  | ExtensionsPath (s : Bytes)
  | NISDomain (s : Bytes)
  | RootPath (s : Bytes)
  | NetBiosScope (s : Bytes)
  | Message (s : Bytes)
  | BootFileSize (num : Nat)
  | MaxDatagramSize (num : Nat)
  | InterfaceMtu (num : Nat)
  | MaxMessageSize (num : Nat)
  | DomainSearch (names : List Name)
  | Unknown (data : Bytes)
deriving Repr

/-- The Canonical Option Set: the code-keyed collection of typed options
(`DhcpOptions`), represented as an association list kept sorted by code. -/
abbrev Opts := List (Nat × DhcpOption)

/-- Reads a 4-byte payload as one address. -/
def ip4 : Bytes → Option Ipv4Addr
  | [a, b, c, d] => some ⟨a, b, c, d⟩
  | _ => none

/-- Reads a payload as a non-empty whole number of 4-byte addresses. -/
def ipListP : Bytes → Option (List Ipv4Addr)
  | [] => some []
  | a :: b :: c :: d :: rest => (ipListP rest).map fun l => Ipv4Addr.mk a b c d :: l
  | _ => none

/-- Reads a 1-byte payload. -/
def u8P : Bytes → Option Nat
  | [a] => some a
  | _ => none

/-- Reads a 2-byte big-endian payload. -/
def u16P : Bytes → Option Nat
  | [a, b] => some (a * 256 + b)
  | _ => none

/-- Reads a 4-byte big-endian payload. -/
def u32P : Bytes → Option Nat
  | [a, b, c, d] => some (((a * 256 + b) * 256 + c) * 256 + d)
  | _ => none

/-- Reads a 4-byte big-endian payload as a two's-complement signed value. -/
def i32P (p : Bytes) : Option Int :=
  (u32P p).map fun u => if u < 2 ^ 31 then (u : Int) else (u : Int) - 2 ^ 32

/-- Reads a 1-byte payload as a boolean (`read_u8 == 1`). -/
def boolP : Bytes → Option Bool
  | [a] => some (a == 1)
  | _ => none

/-- State of the DNS wire-format name parser: between labels (with the
labels of the current partial name, reversed), inside a label, or failed. -/
inductive NSt where
  | atLen (cur : List Bytes)
  | inLabel (need : Nat) (acc : Bytes) (cur : List Bytes)
  | fail
deriving DecidableEq, Repr

/-- One step of the wire-format name parser; compression pointers are not
modelled (the encoder under specification never emits them). -/
def nameStep : NSt × List Name → Nat → NSt × List Name
  | (.atLen cur, names), b =>
    if b = 0 then (.atLen [], cur.reverse :: names)
    else if b ≤ 63 then (.inLabel b [] cur, names)
    else (.fail, names)
  | (.inLabel need acc cur, names), b =>
    if need ≤ 1 then (.atLen ((b :: acc).reverse :: cur), names)
    else (.inLabel (need - 1) (b :: acc) cur, names)
  | (.fail, names), _ => (.fail, names)

/-- Modelled from the spec: the canonical decoder's parse of a
`DomainSearch` payload — a concatenation of complete wire-format names
that must end exactly at a name boundary. -/
def parseWireNames (p : Bytes) : Option (List Name) :=
  match p.foldl nameStep (.atLen [], []) with
  | (.atLen [], names) => some names.reverse
  | _ => none

/-- The decoding shape of one option code: which payload parser applies
and which typed constructor receives the parsed value. -/
inductive CodeShape where
  | ipS (f : Ipv4Addr → DhcpOption)
  | ipListS (f : List Ipv4Addr → DhcpOption)
  | i32S (f : Int → DhcpOption)
  | u8S (f : Nat → DhcpOption)
  | boolS (f : Bool → DhcpOption)
  | u32S (f : Nat → DhcpOption)
  | strS (f : Bytes → DhcpOption)
  | u16S (f : Nat → DhcpOption)
  | namesS (f : List Name → DhcpOption)
  | unknownS

/-- Modelled from the spec: the code-to-shape assignment of the canonical
decoder, per the standard DHCPv4 option-code table the external library
implements; codes outside the modelled table decode to `Unknown`. -/
def codeShape : Nat → CodeShape
  | 1 => .ipS .SubnetMask
  | 16 => .ipS .SwapServer
  | 28 => .ipS .BroadcastAddr
  | 32 => .ipS .RouterSolicitationAddr
  | 50 => .ipS .RequestedIpAddress
  | 54 => .ipS .ServerIdentifier
  | 118 => .ipS .SubnetSelection
  | 4 => .ipListS .TimeServer
  | 5 => .ipListS .NameServer
  | 3 => .ipListS .Router
  | 6 => .ipListS .DomainNameServer
  | 7 => .ipListS .LogServer
  | 8 => .ipListS .QuoteServer
  | 9 => .ipListS .LprServer
  | 10 => .ipListS .ImpressServer
  | 11 => .ipListS .ResourceLocationServer
  | 48 => .ipListS .XFontServer
  | 49 => .ipListS .XDisplayManager
  | 41 => .ipListS .NIS
  | 42 => .ipListS .NTPServers
  | 44 => .ipListS .NetBiosNameServers
  | 45 => .ipListS .NetBiosDatagramDistributionServer
  | 2 => .i32S .TimeOffset
  | 37 => .u8S .DefaultTcpTtl
  | 23 => .u8S .DefaultIpTtl
  | 52 => .u8S .OptionOverload
  | 46 => .u8S .NetBiosNodeType
  | 19 => .boolS .IpForwarding
  | 20 => .boolS .NonLocalSrcRouting
  | 27 => .boolS .AllSubnetsLocal
  | 29 => .boolS .PerformMaskDiscovery
  | 30 => .boolS .MaskSupplier
  | 31 => .boolS .PerformRouterDiscovery
  | 36 => .boolS .EthernetEncapsulation
  | 39 => .boolS .TcpKeepaliveGarbage
  | 35 => .u32S .ArpCacheTimeout
  | 38 => .u32S .TcpKeepaliveInterval
  | 51 => .u32S .AddressLeaseTime
  | 58 => .u32S .Renewal
  | 59 => .u32S .Rebinding
  | 12 => .strS .Hostname
  | 14 => .strS .MeritDumpFile
  | 15 => .strS .DomainName
  | 18 => .strS .ExtensionsPath
  | 40 => .strS .NISDomain
  | 17 => .strS .RootPath
  | 47 => .strS .NetBiosScope
  | 56 => .strS .Message
  | 13 => .u16S .BootFileSize
  | 22 => .u16S .MaxDatagramSize
  | 26 => .u16S .InterfaceMtu
  | 57 => .u16S .MaxMessageSize
  | 119 => .namesS .DomainSearch
  | _ => .unknownS

/-- Modelled from the spec: the canonical decoder's typed classification
of one merged `(code, payload)` record into a `DhcpOption`, per
`codeShape`; a typed code whose payload has the wrong shape is a decode
error (`none`). -/
def classify (code : Nat) (p : Bytes) : Option DhcpOption :=
  match codeShape code with
  | .ipS f => (ip4 p).map f
  | .ipListS f => (ipListP p).map f
  | .i32S f => (i32P p).map f
  | .u8S f => (u8P p).map f
  | .boolS f => (boolP p).map f
  | .u32S f => (u32P p).map f
  | .strS f => some (f p)
  | .u16S f => (u16P p).map f
  | .namesS f => (parseWireNames p).map f
  | .unknownS => some (.Unknown p)

/-- State of the TLV record scanner: expecting a code byte, expecting a
length byte, inside a payload (with the bytes still needed and the bytes
read so far, reversed), or stopped at the `End` marker. -/
inductive PSt where
  | atCode
  | atLen (c : Nat)
  | inPayload (c : Nat) (need : Nat) (acc : Bytes)
  | done
deriving DecidableEq, Repr

/-- One byte of the TLV record scanner: code 0 is the `Pad` pseudo-option
and is skipped; code 255 is the `End` terminator and stops the scan;
otherwise a length byte then that many payload bytes follow.  Completed
records accumulate in reverse. -/
def recStep : PSt × List (Nat × Bytes) → Nat → PSt × List (Nat × Bytes)
  | (.atCode, recs), b =>
    if b = 0 then (.atCode, recs)
    else if b = 255 then (.done, recs)
    else (.atLen b, recs)
  | (.atLen c, recs), b =>
    if b = 0 then (.atCode, (c, []) :: recs) else (.inPayload c b [], recs)
  | (.inPayload c need acc, recs), b =>
    if need ≤ 1 then (.atCode, (c, (b :: acc).reverse) :: recs)
    else (.inPayload c (need - 1) (b :: acc), recs)
  | (.done, recs), _ => (.done, recs)

/-- Modelled from the spec: the raw TLV scan of the canonical decoder
(§6): `code byte, length byte, length bytes of payload, repeated,
terminated by the designated terminator code`; a buffer that ends inside
a record is a decode error, while exhaustion at a record boundary ends
the scan like the terminator does. -/
def parseRecords (bytes : Bytes) : Option (List (Nat × Bytes)) :=
  match bytes.foldl recStep (.atCode, []) with
  | (.atCode, recs) => some recs.reverse
  | (.done, recs) => some recs.reverse
  | _ => none

/-- Modelled from the spec: the long-option reassembly of the canonical
decoder — consecutive records bearing the same code are concatenated into
one logical value before typed classification (glossary: long option). -/
def mergeRecs : List (Nat × Bytes) → List (Nat × Bytes)
  | [] => []
  | (c, p) :: rest =>
    match mergeRecs rest with
    | (c2, p2) :: tail => if c = c2 then (c, p ++ p2) :: tail else (c, p) :: (c2, p2) :: tail
    | [] => [(c, p)]

/-- Code-keyed insertion into the sorted association list representing
the option set; an equal code replaces the previous entry. -/
def insertSorted (c : Nat) (o : DhcpOption) : Opts → Opts
  | [] => [(c, o)]
  | (c2, o2) :: rest =>
    if c < c2 then (c, o) :: (c2, o2) :: rest
    else if c = c2 then (c, o) :: rest
    else (c2, o2) :: insertSorted c o rest

/-- Typed classification of every merged record; one bad record fails
the whole decode, as in the external decoder. -/
def classifyAll : List (Nat × Bytes) → Option (List (Nat × DhcpOption))
  | [] => some []
  | r :: rest =>
    (classify r.1 r.2).bind fun o => (classifyAll rest).map fun es => (r.1, o) :: es

/-- Modelled from the spec: the external canonical decoder
(`DhcpOptions::decode`, §6): scan the TLV records, reassemble long
options, classify each merged record, and collect the typed entries into
the code-keyed set. -/
def dhcpOptionsDecode (bytes : Bytes) : Option Opts := do
  let recs ← parseRecords bytes
  let entries ← classifyAll (mergeRecs recs)
  some (entries.foldl (fun m e => insertSorted e.1 e.2 m) [])

/-- Error of the Set Assembler pass (`Deserialize for Opts`): either a
value failed to encode, or the canonical decoder rejected the assembled
buffer; both are surfaced through the same `de::Error::custom` channel. -/
inductive DeserErr where
  | enc (e : EncErr)
  | decodeFail
deriving DecidableEq, Repr

/-- The Set Assembler / Decoder Bridge (`Deserialize for Opts`): encode
every entry of the authored map into one buffer, append the `End`
terminator once, then run the canonical decoder on the buffer. -/
def Opts.deserialize (map : List (Nat × Opt)) : Except DeserErr Opts :=
  match write_opts [] map with
  | .error e => .error (.enc e)
  | .ok buf =>
    match dhcpOptionsDecode (buf ++ [255]) with
    | some opts => .ok opts
    | none => .error .decodeFail

/-- Modelled from the spec: the value payload of a canonical typed
option as the external library re-encodes it. -/
def optPayload : DhcpOption → Bytes
  | .Pad | .End => []
  | .SubnetMask addr | .SwapServer addr | .BroadcastAddr addr | .RouterSolicitationAddr addr
  | .RequestedIpAddress addr | .ServerIdentifier addr | .SubnetSelection addr => addr.octets
  | .TimeServer ips | .NameServer ips | .Router ips | .DomainNameServer ips | .LogServer ips
  | .QuoteServer ips | .LprServer ips | .ImpressServer ips | .ResourceLocationServer ips
  | .XFontServer ips | .XDisplayManager ips | .NIS ips | .NTPServers ips
  | .NetBiosNameServers ips | .NetBiosDatagramDistributionServer ips => ips.flatMap Ipv4Addr.octets
  | .TimeOffset num => i32be num
  | .DefaultTcpTtl num | .DefaultIpTtl num | .OptionOverload num => [num % 256]
  | .NetBiosNodeType ntype => [ntype % 256]
  | .IpForwarding b | .NonLocalSrcRouting b | .AllSubnetsLocal b | .PerformMaskDiscovery b
  | .MaskSupplier b | .PerformRouterDiscovery b | .EthernetEncapsulation b
  | .TcpKeepaliveGarbage b => [if b then 1 else 0]
  | .ArpCacheTimeout num | .TcpKeepaliveInterval num | .AddressLeaseTime num
  | .Renewal num | .Rebinding num => u32be num
  | .Hostname s | .MeritDumpFile s | .DomainName s | .ExtensionsPath s | .NISDomain s
  | .RootPath s | .NetBiosScope s | .Message s => s
  | .BootFileSize num | .MaxDatagramSize num | .InterfaceMtu num | .MaxMessageSize num => u16be num
  | .DomainSearch names => names.flatMap emitName
  | .Unknown data => data

/-- Modelled from the spec: `DhcpOption::to_vec` — re-encode one canonical
option into wire bytes `[code, len, data...]`, splitting a payload above
the 255-byte ceiling into multiple records through the long-option chunk
writer.  It cannot fail, so the `Err` branch of the source's catch-all
arm is unreachable in the model. -/
def DhcpOption.toVec (code : Nat) (opt : DhcpOption) : Bytes :=
  encode_long_opt_bytes code (optPayload opt) []

/-- The Reverse Normalizer `to_opt` of the source: classify one canonical
entry back into the tagged value model by its shape; `Pad`/`End` carry no
value and are dropped, and any variant without an explicit arm falls back
to hex via re-encoding with the leading code and length octets sliced
off. -/
def to_opt (code : Nat) (opt : DhcpOption) : Option (Nat × Opt) :=
  match opt with
  | .Pad | .End => none
  | .SubnetMask addr | .SwapServer addr | .BroadcastAddr addr | .RouterSolicitationAddr addr
  | .RequestedIpAddress addr | .ServerIdentifier addr | .SubnetSelection addr =>
    some (code, .Ip addr)
  | .TimeServer ips | .NameServer ips | .Router ips | .DomainNameServer ips | .LogServer ips
  | .QuoteServer ips | .LprServer ips | .ImpressServer ips | .ResourceLocationServer ips
  | .XFontServer ips | .XDisplayManager ips | .NIS ips | .NTPServers ips
  | .NetBiosNameServers ips | .NetBiosDatagramDistributionServer ips =>
    some (code, .IpList ips)
  | .TimeOffset num => some (code, .I32 num)
  | .DefaultTcpTtl num | .DefaultIpTtl num | .OptionOverload num => some (code, .U8 num)
  | .NetBiosNodeType ntype => some (code, .U8 ntype)
  | .IpForwarding b | .NonLocalSrcRouting b | .AllSubnetsLocal b | .PerformMaskDiscovery b
  | .MaskSupplier b | .PerformRouterDiscovery b | .EthernetEncapsulation b
  | .TcpKeepaliveGarbage b => some (code, .Bool b)
  | .ArpCacheTimeout num | .TcpKeepaliveInterval num | .AddressLeaseTime num
  | .Renewal num | .Rebinding num => some (code, .U32 num)
  | .Hostname s | .MeritDumpFile s | .DomainName s | .ExtensionsPath s | .NISDomain s
  | .RootPath s | .NetBiosScope s | .Message s => some (code, .Str s)
  | .BootFileSize num | .MaxDatagramSize num | .InterfaceMtu num | .MaxMessageSize num =>
    some (code, .U16 num)
  | .Unknown data => some (code, .Hex (hexEncode data))
  | opt =>
    let buf := opt.toVec code
    some (code, .Hex (if buf.isEmpty then [] else hexEncode (buf.drop 2)))

/-- The reverse direction of the bridge (`Serialize for Opts`): normalize
every canonical entry back into the tagged map, dropping the valueless
pseudo-options. -/
def Opts.serialize (opts : Opts) : List (Nat × Opt) :=
  opts.filterMap fun e => to_opt e.1 e.2

/-- The sequence of record payloads `write_opt` emits for one value: a
restatement of the per-kind payload computation of `write_opt`, used to
state and prove its structure (their agreement is proved in
`write_opt_chunks`). -/
def entryChunks : Opt → Except EncErr (List Bytes)
  | .Ip ip => .ok [ip.octets]
  | .IpList list => .ok ((chunkList 63 list).map fun ch => ch.flatMap fun ip => u32be ip.toU32)
  | .DomainList list =>
    match encodeNames list with
    | .error e => .error e
    | .ok nbuf => .ok (chunkList 255 nbuf)
  | .Str s => .ok (chunkList 255 s)
  | .U32 n => .ok [u32be n]
  | .I32 n => .ok [i32be n]
  | .U8 n => .ok [[n % 256]]
  | .Bool b => .ok [[if b then 1 else 0]]
  | .U16 n => .ok [u16be n]
  | .B64 s =>
    match b64decode s with
    | .error e => .error (.b64 e)
    | .ok bytes => .ok (chunkList 255 bytes)
  | .Hex s =>
    match hexDecode s with
    | .error e => .error (.hexE e)
    | .ok bytes => .ok (chunkList 255 bytes)
  | .SubOption sub_opts =>
    match write_opts [] sub_opts with
    | .error e => .error e
    | .ok sub_buf => .ok (chunkList 255 sub_buf)

/-- The TLV record group for one entry: every chunk prefixed by the code
byte and its length byte. -/
def recGroup (code : Nat) (ps : List Bytes) : Bytes :=
  ps.flatMap fun p => code % 256 :: p.length :: p

/-- Spec-shaped restatement of the Set Assembler's buffer (§4.3): every
entry of the map encoded independently into its own bytes (each starting
from an empty buffer), all concatenated in iteration order. -/
def encodeEntries : List (Nat × Opt) → Except EncErr Bytes
  | [] => .ok []
  | e :: rest => do
    let b ← write_opt [] e.1 e.2
    let bs ← encodeEntries rest
    .ok (b ++ bs)

/-- Whether an option code's canonical decoding has the shape of the given
tagged value kind, per the modelled classification table of the canonical
decoder. -/
def shapeOk (code : Nat) : Opt → Bool
  | .Ip _ => decide (code ∈ [1, 16, 28, 32, 50, 54, 118])
  | .IpList _ => decide (code ∈ [4, 5, 3, 6, 7, 8, 9, 10, 11, 48, 49, 41, 42, 44, 45])
  | .DomainList _ => decide (code = 119)
  | .U8 _ => decide (code ∈ [37, 23, 52, 46])
  | .U16 _ => decide (code ∈ [13, 22, 26, 57])
  | .U32 _ => decide (code ∈ [35, 38, 51, 58, 59])
  | .I32 _ => decide (code = 2)
  | .Bool _ => decide (code ∈ [19, 20, 27, 29, 30, 31, 36, 39])
  | .Str _ => decide (code ∈ [12, 14, 15, 18, 40, 17, 47, 56])
  | _ => false

/-- Whether the value is the domain-list kind. -/
def isDomainList : Opt → Bool
  | .DomainList _ => true
  | _ => false

mutual

/-- Well-formedness of a tagged value: every numeric field fits its
machine width and every byte of a byte string is in byte range (these
bounds are enforced by the Rust types `u8`/`u16`/`u32`/`i32`/`String`). -/
def optWf : Opt → Bool
  | .Ip ip => ip.wf
  | .IpList l => l.all Ipv4Addr.wf
  | .DomainList l => l.all fun s => s.all fun b => decide (b < 256)
  | .U8 n => decide (n < 2 ^ 8)
  | .U16 n => decide (n < 2 ^ 16)
  | .U32 n => decide (n < 2 ^ 32)
  | .I32 n => decide (-(2 ^ 31) ≤ n) && decide (n < 2 ^ 31)
  | .Bool _ => true
  | .Str s => s.all fun b => decide (b < 256)
  | .B64 s => s.all fun b => decide (b < 256)
  | .Hex s => s.all fun b => decide (b < 256)
  | .SubOption m => wfOpts m

/-- Well-formedness of a sub-option map: codes in byte range, values
well-formed. -/
def wfOpts : List (Nat × Opt) → Bool
  | [] => true
  | (c, o) :: rest => decide (c < 256) && optWf o && wfOpts rest

end

/-- Total wrapper of `classify` used to characterize a successful
classification pass. -/
def classifyD (c : Nat) (p : Bytes) : DhcpOption := (classify c p).getD .Pad

/-- A maximal 63-byte label, used by the long `DomainSearch`
counterexample. -/
def longLabel : Bytes := List.replicate 63 97

/-- Four single-label names whose concatenated wire encoding is 260 bytes
— above the single-TLV ceiling. -/
def longNames : List Name := List.replicate 4 [longLabel]

/-- The 260-byte wire payload of `longNames`. -/
def longPay : Bytes := longNames.flatMap emitName

/-- A canonical buffer carrying `longPay` under code 119 split across two
records, as the long-option writer would emit it. -/
def longBuf : Bytes := [119, 255] ++ longPay.take 255 ++ [119, 5] ++ longPay.drop 255 ++ [255]

/-- The chunk sequence of an entry when its encoding succeeds (empty on
an encoding error; only used under success hypotheses). -/
def chunksOf (o : Opt) : List Bytes :=
  match entryChunks o with
  | .ok ps => ps
  | .error _ => []

/-- The raw TLV records the assembler emits for a whole entry list. -/
def groupRecs (l : List (Nat × Opt)) : List (Nat × Bytes) :=
  l.flatMap fun e => (chunksOf e.2).map fun p => (e.1, p)

/-- The merged record one entry contributes after long-option
reassembly. -/
def mergedEntry (e : Nat × Opt) : Nat × Bytes := (e.1, (chunksOf e.2).flatten)

/-- Strict key order on canonical entries. -/
def keyLt (a b : Nat × DhcpOption) : Prop := a.1 < b.1

/-- Range property of the constructors stored in the shape table: none of
them is a pseudo-option, and only the names shape builds `DomainSearch`,
injectively. -/
def shapeCtorOk : CodeShape → Prop
  | .ipS f => ∀ a, f a ≠ .Pad ∧ f a ≠ .End ∧ ∀ ns, f a ≠ .DomainSearch ns
  | .ipListS f => ∀ a, f a ≠ .Pad ∧ f a ≠ .End ∧ ∀ ns, f a ≠ .DomainSearch ns
  | .i32S f => ∀ a, f a ≠ .Pad ∧ f a ≠ .End ∧ ∀ ns, f a ≠ .DomainSearch ns
  | .u8S f => ∀ a, f a ≠ .Pad ∧ f a ≠ .End ∧ ∀ ns, f a ≠ .DomainSearch ns
  | .boolS f => ∀ a, f a ≠ .Pad ∧ f a ≠ .End ∧ ∀ ns, f a ≠ .DomainSearch ns
  | .u32S f => ∀ a, f a ≠ .Pad ∧ f a ≠ .End ∧ ∀ ns, f a ≠ .DomainSearch ns
  | .strS f => ∀ a, f a ≠ .Pad ∧ f a ≠ .End ∧ ∀ ns, f a ≠ .DomainSearch ns
  | .u16S f => ∀ a, f a ≠ .Pad ∧ f a ≠ .End ∧ ∀ ns, f a ≠ .DomainSearch ns
  | .namesS f => (∀ a, f a ≠ .Pad ∧ f a ≠ .End) ∧ ∀ a ns, f a = .DomainSearch ns → a = ns
  | .unknownS => True

/-- States of the wire-name parser keep a positive label remainder. -/
def nstWf : NSt → Prop
  | .inLabel need _ _ => 1 ≤ need
  | _ => True

/-- The bytes consumed so far by the wire-name parser, reconstructed from
its state. -/
def nstBytes : NSt × List Name → Bytes
  | (.atLen cur, names) =>
    (names.reverse.flatMap emitName) ++ (cur.reverse.flatMap fun l => l.length :: l)
  | (.inLabel need acc cur, names) =>
    (names.reverse.flatMap emitName) ++ (cur.reverse.flatMap fun l => l.length :: l) ++
      ((acc.length + need) :: acc.reverse)
  | (.fail, _) => []

/-! ### Structure of the encoder output -/

theorem chunkGo_flatten (n : Nat) (l acc : List α) (k : Nat) :
    (chunkGo n l acc k).flatten = acc.reverse ++ l := by
  induction l generalizing acc k with
  | nil => simp [chunkGo]
  | cons x xs ih =>
    cases k with
    | zero => simp [chunkGo, ih]
    | succ k => simp [chunkGo, ih]

theorem chunkList_flatten (n : Nat) (l : List α) : (chunkList n l).flatten = l := by
  simp [chunkList, chunkGo_flatten]

theorem chunkGo_ne_nil (n : Nat) (l acc : List α) (k : Nat) : chunkGo n l acc k ≠ [] := by
  induction l generalizing acc k with
  | nil => simp [chunkGo]
  | cons x xs ih =>
    cases k with
    | zero => simp [chunkGo]
    | succ k => simpa [chunkGo] using ih (x :: acc) k

theorem chunkList_ne_nil (n : Nat) (l : List α) : chunkList n l ≠ [] :=
  chunkGo_ne_nil n l [] n

theorem length_flatMap_u32be (ch : List Ipv4Addr) :
    (ch.flatMap fun ip => u32be ip.toU32).length = 4 * ch.length := by
  induction ch with
  | nil => simp
  | cons x xs ih =>
    rw [List.flatMap_cons, List.length_append, ih]
    simp only [u32be, List.length_cons, List.length_nil]
    omega

/-- The bytes `write_opt` appends are exactly the TLV record group built
from the entry chunk sequence. -/
theorem write_opt_chunks (buf : Bytes) (c : Nat) (o : Opt) :
    write_opt buf c o = (entryChunks o).map fun ps => buf ++ recGroup c ps := by
  cases o with
  | Ip ip => simp [write_opt, entryChunks, recGroup, Ipv4Addr.octets, Except.map]
  | IpList l =>
    have key : ∀ L : List (List Ipv4Addr),
        ((L.map fun ch => ch.flatMap fun ip => u32be ip.toU32).flatMap
            fun p => c % 256 :: p.length :: p) =
          L.flatMap fun ch => c % 256 :: 4 * ch.length :: ch.flatMap fun ip => u32be ip.toU32 := by
      intro L
      induction L with
      | nil => simp
      | cons ch L ih =>
        simp only [List.map_cons, List.flatMap_cons, ih, length_flatMap_u32be]
    simp [write_opt, entryChunks, recGroup, encode_long_opt_chunks, Except.map, key]
  | DomainList l =>
    show ((encodeNames l).bind fun nbuf => Except.ok (encode_long_opt_bytes c nbuf buf)) =
      ((match encodeNames l with
        | Except.error e => Except.error e
        | Except.ok nbuf => Except.ok (chunkList 255 nbuf) : Except EncErr (List Bytes))).map
          fun ps => buf ++ recGroup c ps
    cases encodeNames l <;> rfl
  | U8 n => simp [write_opt, entryChunks, recGroup, Except.map]
  | U16 n => simp [write_opt, entryChunks, recGroup, u16be, Except.map]
  | U32 n => simp [write_opt, entryChunks, recGroup, u32be, Except.map]
  | I32 n => simp [write_opt, entryChunks, recGroup, i32be, u32be, Except.map]
  | Bool b => simp [write_opt, entryChunks, recGroup, Except.map]
  | Str s => simp [write_opt, entryChunks, recGroup, encode_long_opt_bytes, Except.map]
  | B64 s =>
    cases h : b64decode s <;>
      simp [write_opt, entryChunks, recGroup, encode_long_opt_bytes, h, Except.map]
  | Hex s =>
    cases h : hexDecode s <;>
      simp [write_opt, entryChunks, recGroup, encode_long_opt_bytes, h, Except.map]
  | SubOption m =>
    show ((write_opts [] m).bind fun sub_buf => Except.ok (encode_long_opt_bytes c sub_buf buf)) =
      ((match write_opts [] m with
        | Except.error e => Except.error e
        | Except.ok sub_buf => Except.ok (chunkList 255 sub_buf) : Except EncErr (List Bytes))).map
          fun ps => buf ++ recGroup c ps
    cases write_opts [] m <;> rfl

theorem write_opts_cons (buf : Bytes) (c : Nat) (o : Opt) (rest : List (Nat × Opt)) :
    write_opts buf ((c, o) :: rest) = (write_opt buf c o).bind fun b => write_opts b rest := rfl

/-- Encoding appends to the buffer: the appended bytes do not depend on
the bytes already present. -/
theorem write_opt_prepend (buf : Bytes) (c : Nat) (o : Opt) :
    write_opt buf c o = (write_opt [] c o).map fun b => buf ++ b := by
  rw [write_opt_chunks buf, write_opt_chunks []]
  cases entryChunks o <;> simp [Except.map]

theorem write_opts_prepend (l : List (Nat × Opt)) (buf : Bytes) :
    write_opts buf l = (write_opts [] l).map fun b => buf ++ b := by
  induction l generalizing buf with
  | nil => simp [write_opts, Except.map]
  | cons e rest ih =>
    obtain ⟨c, o⟩ := e
    rw [write_opts_cons, write_opts_cons]
    rw [write_opt_prepend buf c o]
    cases h : write_opt [] c o with
    | error err => simp [Except.map, Except.bind]
    | ok d =>
      simp only [Except.map, Except.bind]
      rw [ih (buf ++ d), ih d]
      cases write_opts [] rest <;> simp [Except.map]

/-- The Set Assembler buffer is the concatenation of the independently
encoded entries, in iteration order. -/
theorem write_opts_encodeEntries (l : List (Nat × Opt)) :
    write_opts [] l = encodeEntries l := by
  induction l with
  | nil => rfl
  | cons e rest ih =>
    obtain ⟨c, o⟩ := e
    rw [write_opts_cons]
    cases h : write_opt [] c o with
    | error err =>
      simp only [encodeEntries, h]
      rfl
    | ok d =>
      simp only [Except.bind]
      rw [write_opts_prepend rest d, ih]
      simp only [encodeEntries, h]
      cases encodeEntries rest <;> rfl

/-! ### Base64 rejection -/

theorem b64Go_invalid : ∀ (n : Nat) (s : Bytes), s.length ≤ n → ∀ off : Nat,
    (∃ x ∈ s, b64Val x = none) → ∃ e, b64Go off s = .error e := by
  intro n
  induction n with
  | zero =>
    intro s hs off hx
    cases s with
    | nil => simp at hx
    | cons a t => simp at hs
  | succ n ih =>
    intro s hs off hx
    match s with
    | [] => simp at hx
    | [a] => exact ⟨_, rfl⟩
    | [a, b] =>
      cases ha : b64Val a with
      | none => exact ⟨.InvalidByte off a, by simp only [b64Go, ha]⟩
      | some va =>
        cases hb : b64Val b with
        | none => exact ⟨.InvalidByte (off + 1) b, by simp only [b64Go, ha, hb]⟩
        | some vb =>
          refine ⟨.InvalidLastSymbol (off + 1) b, ?_⟩
          have : vb % 16 ≠ 0 := by
            intro hz
            obtain ⟨x, hmem, hnone⟩ := hx
            simp at hmem
            rcases hmem with rfl | rfl <;> simp_all
          simp only [b64Go, ha, hb, if_neg this]
    | [a, b, c] =>
      cases ha : b64Val a with
      | none => exact ⟨.InvalidByte off a, by simp only [b64Go, ha]⟩
      | some va =>
        cases hb : b64Val b with
        | none => exact ⟨.InvalidByte (off + 1) b, by simp only [b64Go, ha, hb]⟩
        | some vb =>
          cases hc : b64Val c with
          | none => exact ⟨.InvalidByte (off + 2) c, by simp only [b64Go, ha, hb, hc]⟩
          | some vc =>
            refine ⟨.InvalidLastSymbol (off + 2) c, ?_⟩
            have : vc % 4 ≠ 0 := by
              intro hz
              obtain ⟨x, hmem, hnone⟩ := hx
              simp at hmem
              rcases hmem with rfl | rfl | rfl <;> simp_all
            simp only [b64Go, ha, hb, hc, if_neg this]
    | a :: b :: c :: d :: rest =>
      cases ha : b64Val a with
      | none => exact ⟨.InvalidByte off a, by simp only [b64Go, ha]⟩
      | some va =>
        cases hb : b64Val b with
        | none => exact ⟨.InvalidByte (off + 1) b, by simp only [b64Go, ha, hb]⟩
        | some vb =>
          cases hc : b64Val c with
          | none => exact ⟨.InvalidByte (off + 2) c, by simp only [b64Go, ha, hb, hc]⟩
          | some vc =>
            cases hd : b64Val d with
            | none => exact ⟨.InvalidByte (off + 3) d, by simp only [b64Go, ha, hb, hc, hd]⟩
            | some vd =>
              have hrest : ∃ x ∈ rest, b64Val x = none := by
                obtain ⟨x, hmem, hnone⟩ := hx
                simp at hmem
                rcases hmem with rfl | rfl | rfl | rfl | hmem
                · simp_all
                · simp_all
                · simp_all
                · simp_all
                · exact ⟨x, hmem, hnone⟩
              have hlen : rest.length ≤ n := by
                simp at hs
                omega
              obtain ⟨e, he⟩ := ih rest hlen (off + 4) hrest
              refine ⟨e, ?_⟩
              simp only [b64Go, ha, hb, hc, hd, he]
              rfl

theorem b64decode_invalid (s : Bytes) (hx : ∃ x ∈ s, b64Val x = none) :
    ∃ e, b64decode s = .error e := by
  unfold b64decode
  by_cases h : s.length % 4 = 1
  · exact ⟨.InvalidLength s.length, by simp [h]⟩
  · obtain ⟨e, he⟩ := b64Go_invalid s.length s le_rfl 0 hx
    exact ⟨e, by simp [h, he]⟩

/-! ### Claim theorems C4, C5, C8, C10 -/

/-- C4: encoding the one-entry map `{1: ip 255.255.255.0}` emits exactly
the TLV bytes `[01 04 FF FF FF 00]`, the bridge appends the terminator
byte 255 and the canonical decoder returns the entry for code 1 holding
that address; in general the single-address kind emits the code byte, a
length byte of 4, then the four network-order octets. -/
theorem claim4_single_address :
    write_opts [] [(1, Opt.Ip ⟨255, 255, 255, 0⟩)] = .ok [1, 4, 255, 255, 255, 0] ∧
    dhcpOptionsDecode ([1, 4, 255, 255, 255, 0] ++ [255]) =
      some [(1, DhcpOption.SubnetMask ⟨255, 255, 255, 0⟩)] ∧
    Opts.deserialize [(1, Opt.Ip ⟨255, 255, 255, 0⟩)] =
      .ok [(1, DhcpOption.SubnetMask ⟨255, 255, 255, 0⟩)] ∧
    ∀ (buf : Bytes) (code : Nat) (ip : Ipv4Addr), write_opt buf code (.Ip ip) =
      .ok (buf ++ [code % 256, 4, ip.a, ip.b, ip.c, ip.d]) := by
  refine ⟨rfl, rfl, rfl, fun buf code ip => ?_⟩
  simp [write_opt, Ipv4Addr.octets]

/-- C5: the Set Assembler, given a complete Option Map, encodes every
entry into one buffer (entries encoded independently and concatenated in
iteration order), appends the terminator byte 255 exactly once after all
entries, then invokes the canonical decoder on that buffer and returns
the resulting Canonical Option Set on success. -/
theorem claim5_assembler_bridge (map : List (Nat × Opt)) :
    Opts.deserialize map =
      match encodeEntries map with
      | .error e => .error (.enc e)
      | .ok buf =>
        match dhcpOptionsDecode (buf ++ [255]) with
        | some opts => .ok opts
        | none => .error .decodeFail := by
  unfold Opts.deserialize
  rw [write_opts_encodeEntries]

/-- C8: every fixed-width scalar kind encodes as a single TLV with the
declared length and big-endian byte order: `u8` and boolean emit
`code, 1, byte`; `u16` emits `code, 2, value big-endian`; `u32` and `i32`
emit `code, 4, value big-endian` (two's complement for `i32`). -/
theorem claim8_fixed_scalars (buf : Bytes) (code : Nat) :
    (∀ n, write_opt buf code (.U8 n) = .ok (buf ++ [code % 256, 1, n % 256])) ∧
    (∀ b, write_opt buf code (.Bool b) = .ok (buf ++ [code % 256, 1, if b then 1 else 0])) ∧
    (∀ n, write_opt buf code (.U16 n) =
      .ok (buf ++ [code % 256, 2, n / 2 ^ 8 % 256, n % 256])) ∧
    (∀ n, write_opt buf code (.U32 n) =
      .ok (buf ++ [code % 256, 4, n / 2 ^ 24 % 256, n / 2 ^ 16 % 256, n / 2 ^ 8 % 256,
        n % 256])) ∧
    (∀ n : Int, write_opt buf code (.I32 n) =
      .ok (buf ++ [code % 256, 4, (n % 2 ^ 32).toNat / 2 ^ 24 % 256,
        (n % 2 ^ 32).toNat / 2 ^ 16 % 256, (n % 2 ^ 32).toNat / 2 ^ 8 % 256,
        (n % 2 ^ 32).toNat % 256])) := by
  refine ⟨fun n => ?_, fun b => ?_, fun n => ?_, fun n => ?_, fun n => ?_⟩ <;>
    simp [write_opt, u16be, u32be, i32be]

/-- C10: the base64 kind accepts only unpadded standard-alphabet base64:
any input containing the padding character (byte 61) fails the encode
pass with a base64 decode error, because the no-padding standard engine
rejects it. -/
theorem claim10_no_pad (buf : Bytes) (code : Nat) (s : Bytes) (h : 61 ∈ s) :
    ∃ e, write_opt buf code (.B64 s) = .error (.b64 e) := by
  obtain ⟨e, he⟩ := b64decode_invalid s ⟨61, h, rfl⟩
  exact ⟨e, by simp [write_opt, he]⟩

/-- Witness for C10 at the valid padded base64 input `QUJD=`. -/
theorem claim10_witness :
    (61 ∈ ([81, 85, 74, 68, 61] : Bytes)) ∧
    ∃ e, write_opt [] 43 (.B64 [81, 85, 74, 68, 61]) = .error (.b64 e) :=
  ⟨by decide, claim10_no_pad [] 43 [81, 85, 74, 68, 61] (by decide)⟩

/-! ### Claim C6: malformed payloads abort the whole pass -/

theorem write_opts_err_of_mem (l : List (Nat × Opt)) (buf : Bytes) (c : Nat) (o : Opt)
    (hmem : (c, o) ∈ l) (e : EncErr) (herr : write_opt [] c o = .error e) :
    ∃ e2, write_opts buf l = .error e2 := by
  induction l generalizing buf with
  | nil => simp at hmem
  | cons hd rest ih =>
    obtain ⟨c1, o1⟩ := hd
    rw [write_opts_cons]
    rcases List.mem_cons.mp hmem with heq | hmem2
    · obtain ⟨rfl, rfl⟩ := Prod.mk.injEq .. ▸ heq
      rw [write_opt_prepend buf c, herr]
      exact ⟨e, rfl⟩
    · cases hw : write_opt buf c1 o1 with
      | error e1 => exact ⟨e1, rfl⟩
      | ok b => exact ih b hmem2

theorem encodeNames_err_of_mem (l : List Bytes) (bad err : Bytes)
    (hmem : bad ∈ l) (herr : parseName bad = .error err) :
    ∃ e, encodeNames l = .error e := by
  induction l with
  | nil => simp at hmem
  | cons hd rest ih =>
    rcases List.mem_cons.mp hmem with rfl | hmem2
    · exact ⟨.nameE err, by simp [encodeNames, herr]⟩
    · cases hp : parseName hd with
      | error e => exact ⟨.nameE e, by simp [encodeNames, hp]⟩
      | ok labels =>
        obtain ⟨e, he⟩ := ih hmem2
        refine ⟨e, ?_⟩
        simp only [encodeNames, hp, he]
        rfl

/-- C6 (amended): any entry whose payload is malformed — undecodable
base64 text, undecodable hex text, or an unparseable domain name — makes
the whole assemble pass fail with an encode-class error, and no Canonical
Option Set is returned; the scenario input `not-valid-base64!` fails with
the propagated base64 error (which does not carry the option code). -/
theorem claim6_malformed_fails :
    (∀ (map : List (Nat × Opt)) (code : Nat) (s : Bytes) (e : B64Err),
      (code, Opt.B64 s) ∈ map → b64decode s = .error e →
      ∃ e2, Opts.deserialize map = .error (.enc e2)) ∧
    (∀ (map : List (Nat × Opt)) (code : Nat) (s : Bytes) (e : HexErr),
      (code, Opt.Hex s) ∈ map → hexDecode s = .error e →
      ∃ e2, Opts.deserialize map = .error (.enc e2)) ∧
    (∀ (map : List (Nat × Opt)) (code : Nat) (l : List Bytes) (bad err : Bytes),
      (code, Opt.DomainList l) ∈ map → bad ∈ l → parseName bad = .error err →
      ∃ e2, Opts.deserialize map = .error (.enc e2)) ∧
    Opts.deserialize
        [(200, .B64 [110, 111, 116, 45, 118, 97, 108, 105, 100, 45, 98, 97, 115, 101, 54, 52, 33])] =
      .error (.enc (.b64 (.InvalidLength 17))) := by
  refine ⟨?_, ?_, ?_, rfl⟩
  · intro map code s e hmem hdec
    have herr : write_opt [] code (.B64 s) = .error (.b64 e) := by
      simp [write_opt, hdec]
    obtain ⟨e2, he2⟩ := write_opts_err_of_mem map [] code (.B64 s) hmem (.b64 e) herr
    exact ⟨e2, by unfold Opts.deserialize; rw [he2]⟩
  · intro map code s e hmem hdec
    have herr : write_opt [] code (.Hex s) = .error (.hexE e) := by
      simp [write_opt, hdec]
    obtain ⟨e2, he2⟩ := write_opts_err_of_mem map [] code (.Hex s) hmem (.hexE e) herr
    exact ⟨e2, by unfold Opts.deserialize; rw [he2]⟩
  · intro map code l bad err hmem hbad hparse
    obtain ⟨e, he⟩ := encodeNames_err_of_mem l bad err hbad hparse
    have herr : write_opt [] code (.DomainList l) = .error e := by
      simp only [write_opt, he]
      rfl
    obtain ⟨e2, he2⟩ := write_opts_err_of_mem map [] code (.DomainList l) hmem e herr
    exact ⟨e2, by unfold Opts.deserialize; rw [he2]⟩

/-- Witness for the universally quantified parts of C6: a padded base64
value, an odd-length hex value, and a domain list holding an empty
(unparseable) name each abort the assemble pass. -/
theorem claim6_witness :
    (∃ e2, Opts.deserialize [(5, Opt.B64 [61])] = .error (.enc e2)) ∧
    (∃ e2, Opts.deserialize [(6, Opt.Hex [120])] = .error (.enc e2)) ∧
    (∃ e2, Opts.deserialize [(119, Opt.DomainList [[]])] = .error (.enc e2)) :=
  ⟨claim6_malformed_fails.1 [(5, Opt.B64 [61])] 5 [61] (.InvalidLength 1)
      (List.Mem.head _) rfl,
    claim6_malformed_fails.2.1 [(6, Opt.Hex [120])] 6 [120] .OddLength
      (List.Mem.head _) rfl,
    claim6_malformed_fails.2.2.1 [(119, Opt.DomainList [[]])] 119 [[]] [] []
      (List.Mem.head _) (List.Mem.head _) rfl⟩

/-- Counterexample to C6 as stated: the error does not identify the
offending code — two one-entry maps that differ only in the option code
fail with the very same error value, so the code cannot be recovered from
the error. -/
theorem claim6_counterexample :
    Opts.deserialize
        [(5, Opt.B64 [110, 111, 116, 45, 118, 97, 108, 105, 100, 45, 98, 97, 115, 101, 54, 52, 33])] =
      Opts.deserialize
        [(7, Opt.B64 [110, 111, 116, 45, 118, 97, 108, 105, 100, 45, 98, 97, 115, 101, 54, 52, 33])] ∧
    Opts.deserialize
        [(5, Opt.B64 [110, 111, 116, 45, 118, 97, 108, 105, 100, 45, 98, 97, 115, 101, 54, 52, 33])] =
      .error (.enc (.b64 (.InvalidLength 17))) := ⟨rfl, rfl⟩

/-! ### Claim C2: the reverse normalizer is total -/

theorem codeShape_ok (code : Nat) : shapeCtorOk (codeShape code) := by
  unfold codeShape
  split <;>
    first
    | trivial
    | exact fun a => ⟨nofun, nofun, fun ns => nofun⟩
    | exact ⟨fun a => ⟨nofun, nofun⟩, fun a ns h => by cases h; rfl⟩

theorem classify_ne_pad_end (c : Nat) (p : Bytes) (o : DhcpOption)
    (h : classify c p = some o) : o ≠ .Pad ∧ o ≠ .End := by
  unfold classify at h
  have hs := codeShape_ok c
  cases hcs : codeShape c <;> rw [hcs] at h hs
  case ipS f =>
    obtain ⟨x, hx, rfl⟩ := Option.map_eq_some'.mp h
    exact ⟨(hs x).1, (hs x).2.1⟩
  case ipListS f =>
    obtain ⟨x, hx, rfl⟩ := Option.map_eq_some'.mp h
    exact ⟨(hs x).1, (hs x).2.1⟩
  case i32S f =>
    obtain ⟨x, hx, rfl⟩ := Option.map_eq_some'.mp h
    exact ⟨(hs x).1, (hs x).2.1⟩
  case u8S f =>
    obtain ⟨x, hx, rfl⟩ := Option.map_eq_some'.mp h
    exact ⟨(hs x).1, (hs x).2.1⟩
  case boolS f =>
    obtain ⟨x, hx, rfl⟩ := Option.map_eq_some'.mp h
    exact ⟨(hs x).1, (hs x).2.1⟩
  case u32S f =>
    obtain ⟨x, hx, rfl⟩ := Option.map_eq_some'.mp h
    exact ⟨(hs x).1, (hs x).2.1⟩
  case strS f =>
    cases h
    exact ⟨(hs p).1, (hs p).2.1⟩
  case u16S f =>
    obtain ⟨x, hx, rfl⟩ := Option.map_eq_some'.mp h
    exact ⟨(hs x).1, (hs x).2.1⟩
  case namesS f =>
    obtain ⟨x, hx, rfl⟩ := Option.map_eq_some'.mp h
    exact hs.1 x
  case unknownS =>
    cases h
    exact ⟨nofun, nofun⟩

theorem classify_domainsearch (c : Nat) (p : Bytes) (ns : List Name)
    (h : classify c p = some (.DomainSearch ns)) : parseWireNames p = some ns := by
  unfold classify at h
  have hs := codeShape_ok c
  cases hcs : codeShape c <;> rw [hcs] at h hs
  case ipS f =>
    obtain ⟨x, hx, heq⟩ := Option.map_eq_some'.mp h
    exact absurd heq ((hs x).2.2 ns)
  case ipListS f =>
    obtain ⟨x, hx, heq⟩ := Option.map_eq_some'.mp h
    exact absurd heq ((hs x).2.2 ns)
  case i32S f =>
    obtain ⟨x, hx, heq⟩ := Option.map_eq_some'.mp h
    exact absurd heq ((hs x).2.2 ns)
  case u8S f =>
    obtain ⟨x, hx, heq⟩ := Option.map_eq_some'.mp h
    exact absurd heq ((hs x).2.2 ns)
  case boolS f =>
    obtain ⟨x, hx, heq⟩ := Option.map_eq_some'.mp h
    exact absurd heq ((hs x).2.2 ns)
  case u32S f =>
    obtain ⟨x, hx, heq⟩ := Option.map_eq_some'.mp h
    exact absurd heq ((hs x).2.2 ns)
  case strS f =>
    exact absurd (Option.some.inj h) ((hs p).2.2 ns)
  case u16S f =>
    obtain ⟨x, hx, heq⟩ := Option.map_eq_some'.mp h
    exact absurd heq ((hs x).2.2 ns)
  case namesS f =>
    obtain ⟨x, hx, heq⟩ := Option.map_eq_some'.mp h
    rw [hs.2 x ns heq] at hx
    exact hx
  case unknownS =>
    exact absurd (Option.some.inj h) nofun

theorem to_opt_total (c : Nat) (o : DhcpOption) (h1 : o ≠ .Pad) (h2 : o ≠ .End) :
    ∃ v, to_opt c o = some (c, v) := by
  cases o <;> first | exact absurd rfl h1 | exact absurd rfl h2 | exact ⟨_, rfl⟩

theorem mem_classifyAll :
    ∀ (l : List (Nat × Bytes)) (r : List (Nat × DhcpOption)), classifyAll l = some r →
      ∀ y ∈ r, ∃ x ∈ l, y.1 = x.1 ∧ classify x.1 x.2 = some y.2 := by
  intro l
  induction l with
  | nil =>
    intro r h y hy
    cases h
    simp at hy
  | cons x xs ih =>
    intro r h y hy
    unfold classifyAll at h
    cases hx : classify x.1 x.2 with
    | none => rw [hx] at h; cases h
    | some o =>
      rw [hx] at h
      cases hxs : classifyAll xs with
      | none => rw [hxs] at h; cases h
      | some ys =>
        rw [hxs] at h
        cases h
        rcases List.mem_cons.mp hy with rfl | hmem
        · exact ⟨x, List.mem_cons_self x xs, rfl, hx⟩
        · obtain ⟨x2, hx2, he1, he2⟩ := ih ys hxs y hmem
          exact ⟨x2, List.mem_cons_of_mem x hx2, he1, he2⟩

theorem mem_insertSorted (c : Nat) (o : DhcpOption) (m : Opts) (e : Nat × DhcpOption)
    (h : e ∈ insertSorted c o m) : e = (c, o) ∨ e ∈ m := by
  induction m with
  | nil => simpa [insertSorted] using h
  | cons hd rest ih =>
    obtain ⟨c2, o2⟩ := hd
    unfold insertSorted at h
    split_ifs at h with h1 h2
    · rcases List.mem_cons.mp h with rfl | hm
      · exact Or.inl rfl
      · exact Or.inr hm
    · rcases List.mem_cons.mp h with rfl | hm
      · exact Or.inl rfl
      · exact Or.inr (List.mem_cons_of_mem _ hm)
    · rcases List.mem_cons.mp h with rfl | hm
      · exact Or.inr (List.mem_cons_self ..)
      · rcases ih hm with h3 | h3
        · exact Or.inl h3
        · exact Or.inr (List.mem_cons_of_mem _ h3)

theorem mem_foldl_insertSorted (entries : List (Nat × DhcpOption)) :
    ∀ (acc : Opts) (e : Nat × DhcpOption),
      e ∈ entries.foldl (fun m x => insertSorted x.1 x.2 m) acc → e ∈ acc ∨ e ∈ entries := by
  induction entries with
  | nil => intro acc e h; exact Or.inl h
  | cons x xs ih =>
    intro acc e h
    rw [List.foldl_cons] at h
    rcases ih (insertSorted x.1 x.2 acc) e h with h2 | h2
    · rcases mem_insertSorted x.1 x.2 acc e h2 with h3 | h3
      · exact Or.inr (h3 ▸ List.mem_cons_self ..)
      · exact Or.inl h3
    · exact Or.inr (List.mem_cons_of_mem _ h2)

/-- C2: the reverse normalizer is total — every entry of any set the
canonical decoder can produce is mapped by `to_opt` to some tagged value,
which appears in the serialized Option Map; nothing errors. -/
theorem claim2_normalizer_total (buf : Bytes) (opts : Opts)
    (h : dhcpOptionsDecode buf = some opts) :
    ∀ e ∈ opts, ∃ v, to_opt e.1 e.2 = some (e.1, v) ∧ (e.1, v) ∈ Opts.serialize opts := by
  intro e he
  unfold dhcpOptionsDecode at h
  cases hp : parseRecords buf with
  | none => rw [hp] at h; cases h
  | some recs =>
    rw [hp] at h
    simp only [Option.bind_eq_bind, Option.some_bind] at h
    cases hm : classifyAll (mergeRecs recs) with
    | none => rw [hm] at h; cases h
    | some entries =>
      rw [hm] at h
      simp only [Option.some_bind, Option.some.injEq] at h
      subst h
      rcases mem_foldl_insertSorted entries [] e he with h2 | h2
      · simp at h2
      · obtain ⟨r, hr, he1, he2⟩ := mem_classifyAll (mergeRecs recs) entries hm e h2
        obtain ⟨hp1, hp2⟩ := classify_ne_pad_end r.1 r.2 e.2 he2
        obtain ⟨v, hv⟩ := to_opt_total e.1 e.2 hp1 hp2
        exact ⟨v, hv, List.mem_filterMap.mpr ⟨e, he, hv⟩⟩

/-- Witness for C2 at a concrete decoded buffer with an unknown code. -/
theorem claim2_witness :
    ∃ v, to_opt 200 (DhcpOption.Unknown [171]) = some (200, v) ∧
      (200, v) ∈ Opts.serialize [(200, DhcpOption.Unknown [171])] :=
  claim2_normalizer_total [200, 1, 171, 255] [(200, DhcpOption.Unknown [171])] rfl
    (200, DhcpOption.Unknown [171]) (List.Mem.head _)

/-! ### Claim C3: the hex fallback stores the wire payload -/

theorem nameStep_inv (st : NSt) (names : List Name) (b : Nat)
    (hwf : nstWf st) (hne : (nameStep (st, names) b).1 ≠ .fail) :
    nstWf (nameStep (st, names) b).1 ∧
    nstBytes (nameStep (st, names) b) = nstBytes (st, names) ++ [b] := by
  cases st with
  | atLen cur =>
    by_cases hb0 : b = 0
    · subst hb0
      refine ⟨trivial, ?_⟩
      simp [nameStep, nstBytes, emitName]
    · by_cases hb63 : b ≤ 63
      · refine ⟨?_, ?_⟩
        · simp only [nameStep, if_neg hb0, if_pos hb63]
          show 1 ≤ b
          omega
        · simp [nameStep, hb0, hb63, nstBytes]
      · exact absurd (by simp [nameStep, hb0, hb63]) hne
  | inLabel need acc cur =>
    have hne1 : 1 ≤ need := hwf
    by_cases h1 : need ≤ 1
    · have : need = 1 := by omega
      subst this
      refine ⟨trivial, ?_⟩
      simp [nameStep, nstBytes]
    · refine ⟨?_, ?_⟩
      · simp only [nameStep, if_neg h1]
        show 1 ≤ need - 1
        omega
      · have hh : (b :: acc).length + (need - 1) = acc.length + need := by
          simp only [List.length_cons]
          omega
        simp [nameStep, h1, nstBytes, hh]
        omega
  | fail => exact absurd rfl hne

theorem nameFold_fail (bs : Bytes) (names : List Name) :
    bs.foldl nameStep (.fail, names) = (.fail, names) := by
  induction bs with
  | nil => rfl
  | cons b bs ih => simpa [nameStep] using ih

theorem nameFold_inv (bs : Bytes) : ∀ (st : NSt) (names : List Name), nstWf st →
    (bs.foldl nameStep (st, names)).1 ≠ .fail →
    nstWf (bs.foldl nameStep (st, names)).1 ∧
    nstBytes (bs.foldl nameStep (st, names)) = nstBytes (st, names) ++ bs := by
  induction bs with
  | nil => intro st names hwf hne; exact ⟨hwf, by simp⟩
  | cons b bs ih =>
    intro st names hwf hne
    rw [List.foldl_cons] at hne ⊢
    have hne1 : (nameStep (st, names) b).1 ≠ .fail := by
      intro hf
      have hsplit : nameStep (st, names) b = (NSt.fail, (nameStep (st, names) b).2) := by
        rw [← hf]
      rw [hsplit, nameFold_fail] at hne
      exact hne rfl
    obtain ⟨hwf1, hbytes1⟩ := nameStep_inv st names b hwf hne1
    have hpair : ((nameStep (st, names) b).1, (nameStep (st, names) b).2) =
        nameStep (st, names) b := rfl
    obtain ⟨hwf2, hbytes2⟩ := ih (nameStep (st, names) b).1 (nameStep (st, names) b).2
      hwf1 (by rw [hpair]; exact hne)
    rw [hpair] at hwf2 hbytes2
    refine ⟨hwf2, ?_⟩
    rw [hbytes2, hbytes1, List.append_assoc]
    rfl

/-- A successful wire-name parse is inverted exactly by re-emitting the
names. -/
theorem parseWireNames_emit (p : Bytes) (ns : List Name)
    (h : parseWireNames p = some ns) : ns.flatMap emitName = p := by
  unfold parseWireNames at h
  have hinv := nameFold_inv p (.atLen []) [] trivial
  cases hf : p.foldl nameStep (.atLen [], []) with
  | mk st2 names2 =>
    rw [hf] at h hinv
    cases st2 with
    | atLen cur =>
      cases cur with
      | nil =>
        obtain ⟨-, hbytes⟩ := hinv (by intro hc; cases hc)
        simp only [Option.some.injEq] at h
        subst h
        simpa [nstBytes] using hbytes
      | cons l ls => cases h
    | inLabel need acc cur => cases h
    | fail => cases h

theorem chunkGo_single (l : List α) : ∀ (acc : List α) (k : Nat), l.length ≤ k →
    chunkGo n l acc k = [acc.reverse ++ l] := by
  induction l with
  | nil => intro acc k h; simp [chunkGo]
  | cons x xs ih =>
    intro acc k h
    cases k with
    | zero => simp at h
    | succ k =>
      rw [show chunkGo n (x :: xs) acc (k + 1) = chunkGo n xs (x :: acc) k from rfl]
      rw [ih (x :: acc) k (by simpa using h)]
      simp

theorem chunkList_single (l : List α) (n : Nat) (h : l.length ≤ n) :
    chunkList n l = [l] := by
  simpa [chunkList] using chunkGo_single l [] n h

/-- C3 (amended): an `Unknown` entry normalizes to the hex kind holding
exactly its payload bytes, at any length (empty payload gives the empty
string, as in the scenario); a typed-but-unclassified entry (modelled by
`DomainSearch`) also stores exactly its wire payload provided the
re-encoded payload fits one 255-byte TLV record. -/
theorem claim3_hex_fallback :
    (∀ (c : Nat) (d : Bytes), to_opt c (.Unknown d) = some (c, .Hex (hexEncode d))) ∧
    (∀ (c : Nat) (p : Bytes) (ns : List Name), classify c p = some (.DomainSearch ns) →
      p.length ≤ 255 → to_opt c (.DomainSearch ns) = some (c, .Hex (hexEncode p))) ∧
    (dhcpOptionsDecode [200, 0, 255]).map Opts.serialize = some [(200, Opt.Hex [])] := by
  refine ⟨fun c d => rfl, fun c p ns hcl hlen => ?_, rfl⟩
  have hemit : ns.flatMap emitName = p :=
    parseWireNames_emit p ns (classify_domainsearch c p ns hcl)
  have harm : to_opt c (.DomainSearch ns) =
      some (c, .Hex (if ((DhcpOption.DomainSearch ns).toVec c).isEmpty then []
        else hexEncode (((DhcpOption.DomainSearch ns).toVec c).drop 2))) := rfl
  rw [harm]
  have hvec : (DhcpOption.DomainSearch ns).toVec c = c % 256 :: p.length :: p := by
    show encode_long_opt_bytes c (optPayload (.DomainSearch ns)) [] = _
    have hpay : optPayload (.DomainSearch ns) = p := hemit
    rw [encode_long_opt_bytes, hpay, chunkList_single p 255 hlen]
    simp
  rw [hvec]
  simp

/-- Witness for C3 at a one-name `DomainSearch` payload and at an
`Unknown` entry. -/
theorem claim3_witness :
    to_opt 119 (DhcpOption.DomainSearch [[[97]]]) = some (119, Opt.Hex (hexEncode [1, 97, 0])) ∧
    to_opt 77 (DhcpOption.Unknown [171]) = some (77, Opt.Hex (hexEncode [171])) :=
  ⟨claim3_hex_fallback.2.1 119 [1, 97, 0] [[[97]]] rfl (by decide),
    claim3_hex_fallback.1 77 [171]⟩

set_option maxHeartbeats 3200000 in
set_option maxRecDepth 100000 in
/-- Counterexample to C3 as stated: a typed-but-unclassified entry whose
merged wire payload is 260 bytes (`longPay`, four single-label names)
does not store exactly its payload — re-encoding re-chunks at 255 bytes,
so the stored hex contains the interior record header `[119, 5]` and is
524 hex characters instead of the payload's 520. -/
theorem claim3_counterexample :
    dhcpOptionsDecode longBuf = some [(119, DhcpOption.DomainSearch longNames)] ∧
    mergeRecs ((parseRecords longBuf).getD []) = [(119, longPay)] ∧
    longPay.length = 260 ∧
    Opts.serialize [(119, DhcpOption.DomainSearch longNames)] =
      [(119, Opt.Hex (hexEncode (longPay.take 255 ++ [119, 5] ++ longPay.drop 255)))] ∧
    Opts.serialize [(119, DhcpOption.DomainSearch longNames)] ≠
      [(119, Opt.Hex (hexEncode longPay))] := by
  refine ⟨rfl, by decide, by decide, rfl, fun h => ?_⟩
  have h2 := congrArg
    (fun l => (l.map fun e : Nat × Opt =>
      match e.2 with
      | Opt.Hex s => s.length
      | _ => 0).sum) h
  exact absurd h2 (by decide)

/-! ### Parsing the assembled buffer -/

theorem entryChunks_ne_nil (o : Opt) (ps : List Bytes) (h : entryChunks o = .ok ps) :
    ps ≠ [] := by
  cases o <;> simp only [entryChunks] at h
  case Ip ip => cases h; simp
  case IpList l =>
    cases h
    exact fun hmap => chunkList_ne_nil 63 l (by simpa using hmap)
  case DomainList l =>
    cases hn : encodeNames l <;> rw [hn] at h <;> cases h
    exact chunkList_ne_nil 255 _
  case U8 n => cases h; simp
  case U16 n => cases h; simp
  case U32 n => cases h; simp
  case I32 n => cases h; simp
  case Bool b => cases h; simp
  case Str str => cases h; exact chunkList_ne_nil 255 str
  case B64 str =>
    cases hn : b64decode str <;> rw [hn] at h <;> cases h
    exact chunkList_ne_nil 255 _
  case Hex str =>
    cases hn : hexDecode str <;> rw [hn] at h <;> cases h
    exact chunkList_ne_nil 255 _
  case SubOption m =>
    cases hn : write_opts [] m <;> rw [hn] at h <;> cases h
    exact chunkList_ne_nil 255 _

theorem write_opts_ok_entry (l : List (Nat × Opt)) (B : Bytes)
    (hok : write_opts [] l = .ok B) : ∀ e ∈ l, ∃ ps, entryChunks e.2 = .ok ps := by
  induction l generalizing B with
  | nil => intro e he; simp at he
  | cons hd rest ih =>
    intro e he
    obtain ⟨c, o⟩ := hd
    rw [write_opts_cons] at hok
    cases hw : write_opt [] c o with
    | error err => rw [hw] at hok; cases hok
    | ok d =>
      rw [hw] at hok
      rcases List.mem_cons.mp he with rfl | hmem
      · cases hch : entryChunks o with
        | error err =>
          rw [write_opt_chunks, hch] at hw
          simp [Except.map] at hw
        | ok ps => exact ⟨ps, rfl⟩
      · rw [show Except.bind (Except.ok d) (fun b => write_opts b rest) =
          write_opts d rest from rfl] at hok
        rw [write_opts_prepend rest d] at hok
        cases hr : write_opts [] rest with
        | error err => rw [hr] at hok; cases hok
        | ok B2 => exact ih B2 hr e hmem

theorem recStep_payload (p : Bytes) : ∀ (c : Nat) (acc : Bytes) (recs : List (Nat × Bytes)),
    p ≠ [] →
    p.foldl recStep (.inPayload c p.length acc, recs) =
      (.atCode, (c, acc.reverse ++ p) :: recs) := by
  induction p with
  | nil => intro c acc recs h; exact absurd rfl h
  | cons b p2 ih =>
    intro c acc recs h
    rw [List.foldl_cons]
    by_cases hp2 : p2 = []
    · subst hp2
      simp [recStep]
    · have hlen2 : ¬ (b :: p2).length ≤ 1 := by
        cases p2 with
        | nil => exact absurd rfl hp2
        | cons x xs => simp
      have hstep : recStep (.inPayload c (b :: p2).length acc, recs) b =
          (.inPayload c p2.length (b :: acc), recs) := by
        simp [recStep, hlen2, hp2]
      rw [hstep, ih c (b :: acc) recs hp2]
      simp

theorem recStep_record (c : Nat) (p : Bytes) (recs : List (Nat × Bytes))
    (h0 : c ≠ 0) (h255 : c ≠ 255) :
    (c :: p.length :: p).foldl recStep (.atCode, recs) = (.atCode, (c, p) :: recs) := by
  rw [List.foldl_cons, List.foldl_cons]
  rw [show recStep (.atCode, recs) c = (.atLen c, recs) from by simp [recStep, h0, h255]]
  cases hp : p with
  | nil => simp [recStep]
  | cons b t =>
    rw [show recStep (.atLen c, recs) (b :: t).length = (.inPayload c (b :: t).length [], recs)
      from by simp [recStep]]
    simpa using recStep_payload (b :: t) c [] recs (by simp)

theorem recStep_group (c : Nat) (ps : List Bytes) (recs : List (Nat × Bytes))
    (h0 : 0 < c) (h255 : c < 255) :
    (recGroup c ps).foldl recStep (.atCode, recs) =
      (.atCode, (ps.map fun p => (c, p)).reverse ++ recs) := by
  have hc : c % 256 = c := Nat.mod_eq_of_lt (by omega)
  induction ps generalizing recs with
  | nil => simp [recGroup]
  | cons p ps ih =>
    rw [show recGroup c (p :: ps) = (c % 256 :: p.length :: p) ++ recGroup c ps from by
      simp [recGroup]]
    rw [List.foldl_append, hc, recStep_record c p recs (by omega) (by omega), ih ((c, p) :: recs)]
    simp

theorem fold_assembled (l : List (Nat × Opt)) : ∀ (B : Bytes) (recs : List (Nat × Bytes)),
    (∀ e ∈ l, 0 < e.1 ∧ e.1 < 255) →
    write_opts [] l = .ok B →
    B.foldl recStep (.atCode, recs) = (.atCode, (groupRecs l).reverse ++ recs) := by
  induction l with
  | nil =>
    intro B recs hcodes hok
    cases hok
    simp [groupRecs]
  | cons hd rest ih =>
    intro B recs hcodes hok
    obtain ⟨c, o⟩ := hd
    rw [write_opts_cons] at hok
    cases hch : entryChunks o with
    | error err =>
      rw [write_opt_chunks, hch] at hok
      cases hok
    | ok ps =>
      rw [write_opt_chunks, hch] at hok
      rw [show Except.bind (Except.map (fun ps => [] ++ recGroup c ps) (Except.ok ps))
          (fun b => write_opts b rest) = write_opts (recGroup c ps) rest from by
        simp [Except.map, Except.bind]] at hok
      rw [write_opts_prepend rest (recGroup c ps)] at hok
      cases hr : write_opts [] rest with
      | error err => rw [hr] at hok; cases hok
      | ok B2 =>
        rw [hr] at hok
        cases hok
        rw [List.foldl_append]
        rw [recStep_group c ps recs (hcodes (c, o) (List.mem_cons_self ..)).1
          (hcodes (c, o) (List.mem_cons_self ..)).2]
        rw [ih B2 _ (fun e he => hcodes e (List.mem_cons_of_mem _ he)) hr]
        rw [show groupRecs ((c, o) :: rest) =
          (ps.map fun p => (c, p)) ++ groupRecs rest from by
            simp [groupRecs, chunksOf, hch]]
        simp

theorem parseRecords_assembled (l : List (Nat × Opt)) (B : Bytes)
    (hcodes : ∀ e ∈ l, 0 < e.1 ∧ e.1 < 255)
    (hok : write_opts [] l = .ok B) :
    parseRecords (B ++ [255]) = some (groupRecs l) ∧
    parseRecords B = some (groupRecs l) := by
  constructor
  · unfold parseRecords
    rw [List.foldl_append, fold_assembled l B [] hcodes hok]
    simp [recStep]
  · unfold parseRecords
    rw [fold_assembled l B [] hcodes hok]
    simp

/-! ### Long-option reassembly of the emitted groups -/

theorem mergeRecs_head (c : Nat) (p : Bytes) (rest : List (Nat × Bytes)) :
    ∃ q tail, mergeRecs ((c, p) :: rest) = (c, q) :: tail := by
  unfold mergeRecs
  cases hm : mergeRecs rest with
  | nil => exact ⟨p, [], rfl⟩
  | cons r t =>
    obtain ⟨c2, p2⟩ := r
    by_cases hc : c = c2
    · exact ⟨p ++ p2, t, by simp [hc]⟩
    · exact ⟨p, (c2, p2) :: t, by simp [hc]⟩

theorem mergeRecs_cons (c : Nat) (p : Bytes) (rest : List (Nat × Bytes)) :
    mergeRecs ((c, p) :: rest) =
      match mergeRecs rest with
      | (c2, p2) :: tail => if c = c2 then (c, p ++ p2) :: tail else (c, p) :: (c2, p2) :: tail
      | [] => [(c, p)] := rfl

theorem mergeRecs_group (c : Nat) (ps : List Bytes) (rest : List (Nat × Bytes))
    (hne : ps ≠ [])
    (hdiff : ∀ q tail, rest = q :: tail → q.1 ≠ c) :
    mergeRecs ((ps.map fun p => (c, p)) ++ rest) = (c, ps.flatten) :: mergeRecs rest := by
  induction ps with
  | nil => exact absurd rfl hne
  | cons p ps ih =>
    by_cases hps : ps = []
    · subst hps
      rw [show ((([p] : List Bytes).map fun q => (c, q)) ++ rest) = (c, p) :: rest from by simp]
      cases hrest : rest with
      | nil => simp [mergeRecs]
      | cons r t =>
        obtain ⟨c2, p2⟩ := r
        obtain ⟨q, tail, hq⟩ := mergeRecs_head c2 p2 t
        rw [mergeRecs_cons, hq]
        have hcc : c ≠ c2 := fun hcc => (hdiff (c2, p2) t hrest) hcc.symm
        simp [hcc, hq]
    · rw [show (((p :: ps).map fun q => (c, q)) ++ rest) =
        (c, p) :: ((ps.map fun q => (c, q)) ++ rest) from by simp]
      rw [mergeRecs_cons, ih hps]
      simp

theorem mem_groupRecs (l : List (Nat × Opt)) (r : Nat × Bytes) (h : r ∈ groupRecs l) :
    r.1 ∈ l.map Prod.fst := by
  obtain ⟨e, hel, hmem⟩ := List.mem_flatMap.mp h
  obtain ⟨p, hp, rfl⟩ := List.mem_map.mp hmem
  exact List.mem_map.mpr ⟨e, hel, rfl⟩

theorem mergeRecs_groups (l : List (Nat × Opt))
    (hentries : ∀ e ∈ l, ∃ ps, entryChunks e.2 = .ok ps)
    (hnodup : (l.map Prod.fst).Nodup) :
    mergeRecs (groupRecs l) = l.map mergedEntry := by
  induction l with
  | nil => simp [groupRecs, mergeRecs]
  | cons e rest ih =>
    obtain ⟨c, o⟩ := e
    obtain ⟨ps, hps⟩ := hentries (c, o) (List.mem_cons_self ..)
    have hch : chunksOf o = ps := by simp [chunksOf, hps]
    rw [show groupRecs ((c, o) :: rest) =
      (ps.map fun p => (c, p)) ++ groupRecs rest from by simp [groupRecs, hch]]
    rw [mergeRecs_group c ps (groupRecs rest) (entryChunks_ne_nil o ps hps) ?hdiff]
    · rw [ih (fun e2 he2 => hentries e2 (List.mem_cons_of_mem _ he2))
        (List.Nodup.of_cons hnodup)]
      simp [mergedEntry, hch]
    · intro q tail hq hqc
      have : q ∈ groupRecs rest := by rw [hq]; exact List.mem_cons_self ..
      have hmem := mem_groupRecs rest q this
      rw [hqc] at hmem
      exact (List.nodup_cons.mp hnodup).1 hmem

/-! ### Classification and code-keyed collection -/

theorem classifyAll_eq (M : List (Nat × Bytes)) : ∀ (E : List (Nat × DhcpOption)),
    classifyAll M = some E → E = M.map fun r => (r.1, classifyD r.1 r.2) := by
  induction M with
  | nil =>
    intro E h
    cases h
    rfl
  | cons r rest ih =>
    intro E h
    unfold classifyAll at h
    cases hcl : classify r.1 r.2 with
    | none => rw [hcl] at h; cases h
    | some o =>
      rw [hcl] at h
      cases hrest : classifyAll rest with
      | none => rw [hrest] at h; cases h
      | some es =>
        rw [hrest] at h
        cases h
        rw [List.map_cons, ← ih es hrest]
        simp [classifyD, hcl]

theorem insertSorted_pairwise (c : Nat) (o : DhcpOption) (m : Opts)
    (h : m.Pairwise keyLt) : (insertSorted c o m).Pairwise keyLt := by
  induction m with
  | nil => simp [insertSorted, keyLt]
  | cons hd rest ih =>
    obtain ⟨c2, o2⟩ := hd
    obtain ⟨hhd, htl⟩ := List.pairwise_cons.mp h
    unfold insertSorted
    split_ifs with h1 h2
    · refine List.pairwise_cons.mpr ⟨?_, h⟩
      intro x hx
      rcases List.mem_cons.mp hx with rfl | hx2
      · exact h1
      · exact Nat.lt_trans h1 (hhd x hx2)
    · refine List.pairwise_cons.mpr ⟨?_, htl⟩
      intro x hx
      rw [show keyLt (c, o) x = (c < x.1) from rfl, h2]
      exact hhd x hx
    · refine List.pairwise_cons.mpr ⟨?_, ih htl⟩
      intro x hx
      rcases mem_insertSorted c o rest x hx with rfl | hx2
      · show c2 < c
        omega
      · exact hhd x hx2

theorem insertSorted_perm_fresh (c : Nat) (o : DhcpOption) (m : Opts)
    (h : c ∉ m.map Prod.fst) : (insertSorted c o m).Perm ((c, o) :: m) := by
  induction m with
  | nil => exact List.Perm.refl _
  | cons hd rest ih =>
    obtain ⟨c2, o2⟩ := hd
    unfold insertSorted
    split_ifs with h1 h2
    · exact List.Perm.refl _
    · exact absurd (List.mem_map.mpr ⟨(c2, o2), List.mem_cons_self .., h2.symm⟩) h
    · have hfresh : c ∉ rest.map Prod.fst := fun hc =>
        h (List.mem_cons_of_mem _ hc)
      exact ((ih hfresh).cons (c2, o2)).trans (List.Perm.swap (c, o) (c2, o2) rest)

theorem foldl_insert_pairwise (E : List (Nat × DhcpOption)) : ∀ (acc : Opts),
    acc.Pairwise keyLt →
    (E.foldl (fun m e => insertSorted e.1 e.2 m) acc).Pairwise keyLt := by
  induction E with
  | nil => intro acc h; exact h
  | cons e E ih =>
    intro acc h
    rw [List.foldl_cons]
    exact ih _ (insertSorted_pairwise e.1 e.2 acc h)

theorem foldl_insert_perm (E : List (Nat × DhcpOption)) : ∀ (acc : Opts),
    (acc.map Prod.fst ++ E.map Prod.fst).Nodup →
    (E.foldl (fun m e => insertSorted e.1 e.2 m) acc).Perm (acc ++ E) := by
  induction E with
  | nil =>
    intro acc h
    simp
  | cons e E ih =>
    intro acc h
    rw [List.foldl_cons]
    have hfresh : e.1 ∉ acc.map Prod.fst := by
      intro hc
      have hdisj := List.disjoint_of_nodup_append h
      exact hdisj hc (by simp)
    have hkeyperm : ((insertSorted e.1 e.2 acc).map Prod.fst).Perm
        (e.1 :: acc.map Prod.fst) := by
      have := (insertSorted_perm_fresh e.1 e.2 acc hfresh).map Prod.fst
      simp only [List.map_cons] at this
      exact this
    have hnodup2 : ((insertSorted e.1 e.2 acc).map Prod.fst ++ E.map Prod.fst).Nodup := by
      refine ((hkeyperm.append (List.Perm.refl (E.map Prod.fst))).symm).nodup ?_
      have hperm2 : (acc.map Prod.fst ++ e.1 :: E.map Prod.fst).Perm
          ((e.1 :: acc.map Prod.fst) ++ E.map Prod.fst) := by
        exact List.perm_middle
      exact hperm2.nodup (by simpa using h)
    refine (ih _ hnodup2).trans ?_
    refine (((insertSorted_perm_fresh e.1 e.2 acc hfresh).append
      (List.Perm.refl E)).trans ?_)
    simpa using List.perm_middle.symm

theorem sorted_key_eq (l1 l2 : Opts) (h1 : l1.Pairwise keyLt) (h2 : l2.Pairwise keyLt)
    (hp : l1.Perm l2) : l1 = l2 := by
  haveI : IsAntisymm (Nat × DhcpOption) keyLt :=
    ⟨fun a b hab hba => absurd (Nat.lt_trans hab hba) (Nat.lt_irrefl _)⟩
  exact List.eq_of_perm_of_sorted hp h1 h2

/-! ### Claim C9: iteration-order independence -/

/-- C9 (amended): for maps whose codes avoid the `Pad` (0) and `End`
(255) marker values, the Canonical Option Set produced by the
assemble/bridge-decode pass is independent of the order in which entries
are iterated and encoded. -/
theorem claim9_order_independent (l1 l2 : List (Nat × Opt)) (s1 s2 : Opts)
    (hperm : l1.Perm l2)
    (hcodes : ∀ e ∈ l1, 0 < e.1 ∧ e.1 < 255)
    (hnodup : (l1.map Prod.fst).Nodup)
    (h1 : Opts.deserialize l1 = .ok s1) (h2 : Opts.deserialize l2 = .ok s2) :
    s1 = s2 := by
  have hcodes2 : ∀ e ∈ l2, 0 < e.1 ∧ e.1 < 255 := fun e he =>
    hcodes e (hperm.mem_iff.mpr he)
  have hnodup2 : (l2.map Prod.fst).Nodup := (hperm.map Prod.fst).nodup hnodup
  have main : ∀ (l : List (Nat × Opt)) (s : Opts), (∀ e ∈ l, 0 < e.1 ∧ e.1 < 255) →
      (l.map Prod.fst).Nodup → Opts.deserialize l = .ok s →
      ∃ E, E = (l.map mergedEntry).map (fun r => (r.1, classifyD r.1 r.2)) ∧
        s.Perm E ∧ s.Pairwise keyLt ∧ E.map Prod.fst = l.map Prod.fst := by
    intro l s hc hn hd
    unfold Opts.deserialize at hd
    cases hB : write_opts [] l with
    | error e => rw [hB] at hd; cases hd
    | ok B =>
      rw [hB] at hd
      dsimp only [] at hd
      cases hD : dhcpOptionsDecode (B ++ [255]) with
      | none => rw [hD] at hd; cases hd
      | some sx =>
        rw [hD] at hd
        cases hd
        unfold dhcpOptionsDecode at hD
        rw [(parseRecords_assembled l B hc hB).1] at hD
        simp only [Option.bind_eq_bind, Option.some_bind] at hD
        rw [mergeRecs_groups l (write_opts_ok_entry l B hB) hn] at hD
        cases hC : classifyAll (l.map mergedEntry) with
        | none => rw [hC] at hD; cases hD
        | some E =>
          rw [hC] at hD
          have hE := classifyAll_eq (l.map mergedEntry) E hC
          have hsx : E.foldl (fun m e => insertSorted e.1 e.2 m) [] = s :=
            Option.some.inj hD
          have hkeys : E.map Prod.fst = l.map Prod.fst := by
            rw [hE, List.map_map, List.map_map]
            rfl
          refine ⟨E, hE, ?_, ?_, hkeys⟩
          · rw [← hsx]
            simpa using foldl_insert_perm E [] (by simpa [hkeys] using hn)
          · rw [← hsx]
            exact foldl_insert_pairwise E [] (List.Pairwise.nil)
  obtain ⟨E1, hE1, hs1p, hs1s, hk1⟩ := main l1 s1 hcodes hnodup h1
  obtain ⟨E2, hE2, hs2p, hs2s, hk2⟩ := main l2 s2 hcodes2 hnodup2 h2
  have hEperm : E1.Perm E2 := by
    rw [hE1, hE2]
    exact (hperm.map mergedEntry).map _
  exact sorted_key_eq s1 s2 hs1s hs2s (hs1p.trans (hEperm.trans hs2p.symm))

/-- Witness for C9 at a two-entry map and its swapped order. -/
theorem claim9_witness :
    ([(1, DhcpOption.SubnetMask ⟨1, 2, 3, 4⟩), (12, DhcpOption.Hostname [104])] : Opts) =
      [(1, DhcpOption.SubnetMask ⟨1, 2, 3, 4⟩), (12, DhcpOption.Hostname [104])] :=
  claim9_order_independent
    [(1, .Ip ⟨1, 2, 3, 4⟩), (12, .Str [104])]
    [(12, .Str [104]), (1, .Ip ⟨1, 2, 3, 4⟩)]
    [(1, DhcpOption.SubnetMask ⟨1, 2, 3, 4⟩), (12, DhcpOption.Hostname [104])]
    [(1, DhcpOption.SubnetMask ⟨1, 2, 3, 4⟩), (12, DhcpOption.Hostname [104])]
    (List.Perm.swap (12, Opt.Str [104]) (1, Opt.Ip ⟨1, 2, 3, 4⟩) [])
    (by decide) (by decide) rfl rfl

/-- Counterexample to C9 as stated: maps keyed by the `End` (255) or
`Pad` (0) marker codes are order-dependent — the encoded marker byte is
interpreted by the decoder as the terminator (resp. padding), so the two
iteration orders of the same map succeed with different Canonical Option
Sets. -/
theorem claim9_counterexample :
    ([(255, Opt.U8 1), (12, Opt.Str [97])] : List (Nat × Opt)).Perm
      [(12, Opt.Str [97]), (255, Opt.U8 1)] ∧
    (([(255, Opt.U8 1), (12, Opt.Str [97])] : List (Nat × Opt)).map Prod.fst).Nodup ∧
    Opts.deserialize [(255, Opt.U8 1), (12, Opt.Str [97])] = .ok [] ∧
    Opts.deserialize [(12, Opt.Str [97]), (255, Opt.U8 1)] =
      .ok [(12, DhcpOption.Hostname [97])] ∧
    ([] : Opts) ≠ [(12, DhcpOption.Hostname [97])] ∧
    Opts.deserialize [(0, Opt.Str [12, 1, 2, 3, 4, 5, 6, 7, 8, 9, 10, 11, 12, 255]),
        (12, Opt.Str [120])] =
      .ok [(14, DhcpOption.MeritDumpFile [1, 2, 3, 4, 5, 6, 7, 8, 9, 10, 11, 12])] ∧
    Opts.deserialize [(12, Opt.Str [120]),
        (0, Opt.Str [12, 1, 2, 3, 4, 5, 6, 7, 8, 9, 10, 11, 12, 255])] =
      .ok [(12, DhcpOption.Hostname [120]),
        (14, DhcpOption.MeritDumpFile [1, 2, 3, 4, 5, 6, 7, 8, 9, 10, 11, 12])] ∧
    ([(14, DhcpOption.MeritDumpFile [1, 2, 3, 4, 5, 6, 7, 8, 9, 10, 11, 12])] : Opts) ≠
      [(12, .Hostname [120]), (14, .MeritDumpFile [1, 2, 3, 4, 5, 6, 7, 8, 9, 10, 11, 12])] :=
  ⟨List.Perm.swap (12, Opt.Str [97]) (255, Opt.U8 1) [], by decide, rfl, rfl,
    fun h => absurd (congrArg List.length h) (by decide),
    rfl, rfl,
    fun h => absurd (congrArg List.length h) (by decide)⟩

/-! ### Claim C1: round trip for the explicitly classified kinds -/

theorem deserialize_singleton (c : Nat) (o : Opt) (ps : List Bytes)
    (hc0 : 0 < c) (hc255 : c < 255) (hch : entryChunks o = .ok ps) :
    Opts.deserialize [(c, o)] =
      match classify c ps.flatten with
      | some d => .ok [(c, d)]
      | none => .error .decodeFail := by
  have hB : write_opts [] [(c, o)] = .ok (recGroup c ps) := by
    rw [write_opts_cons, write_opt_chunks, hch]
    show write_opts ([] ++ recGroup c ps) [] = _
    simp [write_opts]
  have hcodes : ∀ e ∈ [(c, o)], 0 < e.1 ∧ e.1 < 255 := by
    intro e he
    rcases List.mem_cons.mp he with rfl | h2
    · exact ⟨hc0, hc255⟩
    · simp at h2
  unfold Opts.deserialize
  rw [hB]
  dsimp only []
  unfold dhcpOptionsDecode
  rw [(parseRecords_assembled [(c, o)] (recGroup c ps) hcodes hB).1]
  simp only [Option.bind_eq_bind, Option.some_bind]
  rw [mergeRecs_groups [(c, o)] (write_opts_ok_entry _ _ hB) (by simp)]
  have hchof : chunksOf o = ps := by simp [chunksOf, hch]
  rw [show ([(c, o)].map mergedEntry) = [(c, ps.flatten)] from by simp [mergedEntry, hchof]]
  cases hcl : classify c ps.flatten with
  | none => simp [classifyAll, hcl]
  | some d => simp [classifyAll, hcl, insertSorted]

theorem shape_ip_codes (c : Nat) (h : c ∈ ([1, 16, 28, 32, 50, 54, 118] : List Nat)) :
    (0 < c ∧ c < 255) ∧ ∃ f, codeShape c = .ipS f ∧
      ∀ a, to_opt c (f a) = some (c, .Ip a) := by
  simp at h
  rcases h with rfl | rfl | rfl | rfl | rfl | rfl | rfl
  · exact ⟨by omega, .SubnetMask, rfl, fun a => rfl⟩
  · exact ⟨by omega, .SwapServer, rfl, fun a => rfl⟩
  · exact ⟨by omega, .BroadcastAddr, rfl, fun a => rfl⟩
  · exact ⟨by omega, .RouterSolicitationAddr, rfl, fun a => rfl⟩
  · exact ⟨by omega, .RequestedIpAddress, rfl, fun a => rfl⟩
  · exact ⟨by omega, .ServerIdentifier, rfl, fun a => rfl⟩
  · exact ⟨by omega, .SubnetSelection, rfl, fun a => rfl⟩

theorem shape_iplist_codes (c : Nat)
    (h : c ∈ ([4, 5, 3, 6, 7, 8, 9, 10, 11, 48, 49, 41, 42, 44, 45] : List Nat)) :
    (0 < c ∧ c < 255) ∧ ∃ f, codeShape c = .ipListS f ∧
      ∀ a, to_opt c (f a) = some (c, .IpList a) := by
  simp at h
  rcases h with rfl | rfl | rfl | rfl | rfl | rfl | rfl | rfl | rfl | rfl | rfl | rfl | rfl |
    rfl | rfl
  · exact ⟨by omega, .TimeServer, rfl, fun a => rfl⟩
  · exact ⟨by omega, .NameServer, rfl, fun a => rfl⟩
  · exact ⟨by omega, .Router, rfl, fun a => rfl⟩
  · exact ⟨by omega, .DomainNameServer, rfl, fun a => rfl⟩
  · exact ⟨by omega, .LogServer, rfl, fun a => rfl⟩
  · exact ⟨by omega, .QuoteServer, rfl, fun a => rfl⟩
  · exact ⟨by omega, .LprServer, rfl, fun a => rfl⟩
  · exact ⟨by omega, .ImpressServer, rfl, fun a => rfl⟩
  · exact ⟨by omega, .ResourceLocationServer, rfl, fun a => rfl⟩
  · exact ⟨by omega, .XFontServer, rfl, fun a => rfl⟩
  · exact ⟨by omega, .XDisplayManager, rfl, fun a => rfl⟩
  · exact ⟨by omega, .NIS, rfl, fun a => rfl⟩
  · exact ⟨by omega, .NTPServers, rfl, fun a => rfl⟩
  · exact ⟨by omega, .NetBiosNameServers, rfl, fun a => rfl⟩
  · exact ⟨by omega, .NetBiosDatagramDistributionServer, rfl, fun a => rfl⟩

theorem shape_u8_codes (c : Nat) (h : c ∈ ([37, 23, 52, 46] : List Nat)) :
    (0 < c ∧ c < 255) ∧ ∃ f, codeShape c = .u8S f ∧
      ∀ a, to_opt c (f a) = some (c, .U8 a) := by
  simp at h
  rcases h with rfl | rfl | rfl | rfl
  · exact ⟨by omega, .DefaultTcpTtl, rfl, fun a => rfl⟩
  · exact ⟨by omega, .DefaultIpTtl, rfl, fun a => rfl⟩
  · exact ⟨by omega, .OptionOverload, rfl, fun a => rfl⟩
  · exact ⟨by omega, .NetBiosNodeType, rfl, fun a => rfl⟩

theorem shape_bool_codes (c : Nat) (h : c ∈ ([19, 20, 27, 29, 30, 31, 36, 39] : List Nat)) :
    (0 < c ∧ c < 255) ∧ ∃ f, codeShape c = .boolS f ∧
      ∀ a, to_opt c (f a) = some (c, .Bool a) := by
  simp at h
  rcases h with rfl | rfl | rfl | rfl | rfl | rfl | rfl | rfl
  · exact ⟨by omega, .IpForwarding, rfl, fun a => rfl⟩
  · exact ⟨by omega, .NonLocalSrcRouting, rfl, fun a => rfl⟩
  · exact ⟨by omega, .AllSubnetsLocal, rfl, fun a => rfl⟩
  · exact ⟨by omega, .PerformMaskDiscovery, rfl, fun a => rfl⟩
  · exact ⟨by omega, .MaskSupplier, rfl, fun a => rfl⟩
  · exact ⟨by omega, .PerformRouterDiscovery, rfl, fun a => rfl⟩
  · exact ⟨by omega, .EthernetEncapsulation, rfl, fun a => rfl⟩
  · exact ⟨by omega, .TcpKeepaliveGarbage, rfl, fun a => rfl⟩

theorem shape_u32_codes (c : Nat) (h : c ∈ ([35, 38, 51, 58, 59] : List Nat)) :
    (0 < c ∧ c < 255) ∧ ∃ f, codeShape c = .u32S f ∧
      ∀ a, to_opt c (f a) = some (c, .U32 a) := by
  simp at h
  rcases h with rfl | rfl | rfl | rfl | rfl
  · exact ⟨by omega, .ArpCacheTimeout, rfl, fun a => rfl⟩
  · exact ⟨by omega, .TcpKeepaliveInterval, rfl, fun a => rfl⟩
  · exact ⟨by omega, .AddressLeaseTime, rfl, fun a => rfl⟩
  · exact ⟨by omega, .Renewal, rfl, fun a => rfl⟩
  · exact ⟨by omega, .Rebinding, rfl, fun a => rfl⟩

theorem shape_str_codes (c : Nat) (h : c ∈ ([12, 14, 15, 18, 40, 17, 47, 56] : List Nat)) :
    (0 < c ∧ c < 255) ∧ ∃ f, codeShape c = .strS f ∧
      ∀ a, to_opt c (f a) = some (c, .Str a) := by
  simp at h
  rcases h with rfl | rfl | rfl | rfl | rfl | rfl | rfl | rfl
  · exact ⟨by omega, .Hostname, rfl, fun a => rfl⟩
  · exact ⟨by omega, .MeritDumpFile, rfl, fun a => rfl⟩
  · exact ⟨by omega, .DomainName, rfl, fun a => rfl⟩
  · exact ⟨by omega, .ExtensionsPath, rfl, fun a => rfl⟩
  · exact ⟨by omega, .NISDomain, rfl, fun a => rfl⟩
  · exact ⟨by omega, .RootPath, rfl, fun a => rfl⟩
  · exact ⟨by omega, .NetBiosScope, rfl, fun a => rfl⟩
  · exact ⟨by omega, .Message, rfl, fun a => rfl⟩

theorem shape_u16_codes (c : Nat) (h : c ∈ ([13, 22, 26, 57] : List Nat)) :
    (0 < c ∧ c < 255) ∧ ∃ f, codeShape c = .u16S f ∧
      ∀ a, to_opt c (f a) = some (c, .U16 a) := by
  simp at h
  rcases h with rfl | rfl | rfl | rfl
  · exact ⟨by omega, .BootFileSize, rfl, fun a => rfl⟩
  · exact ⟨by omega, .MaxDatagramSize, rfl, fun a => rfl⟩
  · exact ⟨by omega, .InterfaceMtu, rfl, fun a => rfl⟩
  · exact ⟨by omega, .MaxMessageSize, rfl, fun a => rfl⟩

theorem u16P_u16be (n : Nat) (h : n < 2 ^ 16) : u16P (u16be n) = some n := by
  simp only [u16be, u16P, Option.some.injEq]
  omega

theorem u32P_u32be (n : Nat) (h : n < 2 ^ 32) : u32P (u32be n) = some n := by
  simp only [u32be, u32P, Option.some.injEq]
  omega

theorem i32P_i32be (n : Int) (hlo : -(2 ^ 31) ≤ n) (hhi : n < 2 ^ 31) :
    i32P (i32be n) = some n := by
  have h1 : u32P (u32be (n % 2 ^ 32).toNat) = some (n % 2 ^ 32).toNat :=
    u32P_u32be _ (by omega)
  unfold i32be i32P
  rw [h1]
  simp only [Option.bind_eq_bind, Option.some_bind, pure, Option.map, Option.some.injEq]
  split_ifs <;> omega

theorem ip4_octets (ip : Ipv4Addr) : ip4 ip.octets = some ip := by
  obtain ⟨a, b, c, d⟩ := ip
  rfl

theorem u32be_octets (ip : Ipv4Addr) (h : ip.wf = true) : u32be ip.toU32 = ip.octets := by
  obtain ⟨a, b, c, d⟩ := ip
  simp only [Ipv4Addr.wf, Bool.and_eq_true, decide_eq_true_eq] at h
  simp only [u32be, Ipv4Addr.toU32, Ipv4Addr.octets, List.cons.injEq, and_true]
  refine ⟨?_, ?_, ?_, ?_⟩ <;> omega

theorem ipListP_encoded (l : List Ipv4Addr) (h : ∀ ip ∈ l, ip.wf = true) :
    ipListP (l.flatMap fun ip => u32be ip.toU32) = some l := by
  induction l with
  | nil => rfl
  | cons ip rest ih =>
    rw [List.flatMap_cons, u32be_octets ip (h ip (List.mem_cons_self ..))]
    obtain ⟨a, b, c, d⟩ := ip
    show ipListP ([a, b, c, d] ++ rest.flatMap fun ip => u32be ip.toU32) = _
    rw [show ([a, b, c, d] ++ rest.flatMap fun ip => u32be ip.toU32) =
      a :: b :: c :: d :: (rest.flatMap fun ip => u32be ip.toU32) from rfl]
    unfold ipListP
    rw [ih (fun x hx => h x (List.mem_cons_of_mem _ hx))]
    rfl

theorem flatten_map_flatMap (L : List (List α)) (f : α → List β) :
    (L.map fun ch => ch.flatMap f).flatten = L.flatten.flatMap f := by
  induction L with
  | nil => rfl
  | cons ch L ih => simp [ih]

/-- Per-kind computation shared by C1 and C7: for every explicitly
classified kind (domain list excluded) under a shape-matching code, the
entry's merged payload classifies back to a typed option that `to_opt`
maps to the original tagged value. -/
theorem entry_roundtrip (c : Nat) (o : Opt)
    (hshape : shapeOk c o = true) (hwf : optWf o = true) (hdl : isDomainList o = false) :
    (0 < c ∧ c < 255) ∧ ∃ ps d, entryChunks o = .ok ps ∧
      classify c ps.flatten = some d ∧ to_opt c d = some (c, o) := by
  cases o with
  | DomainList l => simp [isDomainList] at hdl
  | B64 s2 => simp [shapeOk] at hshape
  | Hex s2 => simp [shapeOk] at hshape
  | SubOption m => simp [shapeOk] at hshape
  | Ip ip =>
    obtain ⟨⟨hc0, hc255⟩, f, hcs, hto⟩ := shape_ip_codes c (by simpa [shapeOk] using hshape)
    refine ⟨⟨hc0, hc255⟩, [ip.octets], f ip, rfl, ?_, hto ip⟩
    rw [show ([ip.octets] : List Bytes).flatten = ip.octets from by simp]
    unfold classify
    rw [hcs, ip4_octets]
    rfl
  | IpList l =>
    obtain ⟨⟨hc0, hc255⟩, f, hcs, hto⟩ :=
      shape_iplist_codes c (by simpa [shapeOk] using hshape)
    have hwf2 : ∀ ip ∈ l, ip.wf = true := by
      simpa [optWf, List.all_eq_true] using hwf
    have hch : entryChunks (Opt.IpList l) =
        Except.ok ((chunkList 63 l).map fun ch => ch.flatMap fun ip => u32be ip.toU32) := rfl
    refine ⟨⟨hc0, hc255⟩, _, f l, hch, ?_, hto l⟩
    rw [show ((chunkList 63 l).map fun ch => ch.flatMap fun ip => u32be ip.toU32).flatten =
        l.flatMap fun ip => u32be ip.toU32 from by
      rw [flatten_map_flatMap, chunkList_flatten]]
    unfold classify
    rw [hcs, ipListP_encoded l hwf2]
    rfl
  | U8 n =>
    obtain ⟨⟨hc0, hc255⟩, f, hcs, hto⟩ := shape_u8_codes c (by simpa [shapeOk] using hshape)
    have hn : n < 256 := by simpa [optWf] using hwf
    refine ⟨⟨hc0, hc255⟩, [[n]], f n, ?_, ?_, hto n⟩
    · show (Except.ok [[n % 256]] : Except EncErr (List Bytes)) = Except.ok [[n]]
      rw [Nat.mod_eq_of_lt hn]
    · rw [show ([[n]] : List Bytes).flatten = [n] from by simp]
      unfold classify
      rw [hcs]
      rfl
  | U16 n =>
    obtain ⟨⟨hc0, hc255⟩, f, hcs, hto⟩ := shape_u16_codes c (by simpa [shapeOk] using hshape)
    have hn : n < 2 ^ 16 := by simpa [optWf] using hwf
    refine ⟨⟨hc0, hc255⟩, [u16be n], f n, rfl, ?_, hto n⟩
    rw [show ([u16be n] : List Bytes).flatten = u16be n from by simp]
    unfold classify
    rw [hcs, u16P_u16be n hn]
    rfl
  | U32 n =>
    obtain ⟨⟨hc0, hc255⟩, f, hcs, hto⟩ := shape_u32_codes c (by simpa [shapeOk] using hshape)
    have hn : n < 2 ^ 32 := by simpa [optWf] using hwf
    refine ⟨⟨hc0, hc255⟩, [u32be n], f n, rfl, ?_, hto n⟩
    rw [show ([u32be n] : List Bytes).flatten = u32be n from by simp]
    unfold classify
    rw [hcs, u32P_u32be n hn]
    rfl
  | I32 n =>
    have h2 : c = 2 := by simpa [shapeOk] using hshape
    subst h2
    have hn : -(2 ^ 31) ≤ n ∧ n < 2 ^ 31 := by simpa [optWf] using hwf
    refine ⟨⟨by omega, by omega⟩, [i32be n], DhcpOption.TimeOffset n, rfl, ?_, rfl⟩
    rw [show ([i32be n] : List Bytes).flatten = i32be n from by simp]
    unfold classify
    rw [show codeShape 2 = CodeShape.i32S DhcpOption.TimeOffset from rfl]
    rw [i32P_i32be n hn.1 hn.2]
    rfl
  | Bool b =>
    obtain ⟨⟨hc0, hc255⟩, f, hcs, hto⟩ := shape_bool_codes c (by simpa [shapeOk] using hshape)
    refine ⟨⟨hc0, hc255⟩, [[if b then 1 else 0]], f b, rfl, ?_, hto b⟩
    rw [show ([[if b then 1 else 0]] : List Bytes).flatten = [if b then 1 else 0] from by
      simp]
    unfold classify
    rw [hcs]
    cases b <;> rfl
  | Str s2 =>
    obtain ⟨⟨hc0, hc255⟩, f, hcs, hto⟩ := shape_str_codes c (by simpa [shapeOk] using hshape)
    refine ⟨⟨hc0, hc255⟩, chunkList 255 s2, f s2, rfl, ?_, hto s2⟩
    rw [chunkList_flatten]
    unfold classify
    rw [hcs]

/-- C1 (amended): for every value of the single-address, address-list,
fixed-integer (8/16/32-bit unsigned, 32-bit signed), boolean and string
kinds, stored under an option code whose canonical decoding has that
shape, normalizing the assembled one-entry map returns exactly the
original entry.  The domain-list and encapsulated-map kinds are excluded:
the normalizer has no arm for them (see the counterexample). -/
theorem claim1_roundtrip_kinds (c : Nat) (o : Opt)
    (hshape : shapeOk c o = true) (hwf : optWf o = true) (hdl : isDomainList o = false) :
    ∃ s, Opts.deserialize [(c, o)] = .ok s ∧ Opts.serialize s = [(c, o)] := by
  obtain ⟨⟨hc0, hc255⟩, ps, d, hch, hcl, hto⟩ := entry_roundtrip c o hshape hwf hdl
  refine ⟨[(c, d)], ?_, ?_⟩
  · rw [deserialize_singleton c o ps hc0 hc255 hch, hcl]
  · simp [Opts.serialize, hto]

/-- Witness for C1 at the single-address kind under code 1. -/
theorem claim1_witness :
    ∃ s, Opts.deserialize [(54, Opt.Ip ⟨10, 0, 0, 1⟩)] = .ok s ∧
      Opts.serialize s = [(54, Opt.Ip ⟨10, 0, 0, 1⟩)] :=
  claim1_roundtrip_kinds 54 (Opt.Ip ⟨10, 0, 0, 1⟩) (by decide) (by decide) (by decide)

/-- Counterexample to C1 as stated: a domain-list value under code 119 —
whose canonical decoding is a domain list (`DomainSearch`) — does not
round-trip to the domain-list kind: the reverse normalizer has no
domain-list arm, so the entry comes back as the hex kind. -/
theorem claim1_counterexample :
    shapeOk 119 (Opt.DomainList [[97]]) = true ∧
    optWf (Opt.DomainList [[97]]) = true ∧
    Opts.deserialize [(119, Opt.DomainList [[97]])] =
      .ok [(119, DhcpOption.DomainSearch [[[97]]])] ∧
    Opts.serialize [(119, DhcpOption.DomainSearch [[[97]]])] =
      [(119, Opt.Hex [48, 49, 54, 49, 48, 48])] ∧
    Opts.serialize [(119, DhcpOption.DomainSearch [[[97]]])] ≠
      [(119, Opt.DomainList [[97]])] := by
  refine ⟨by decide, by decide, rfl, rfl, fun h => ?_⟩
  have h2 := congrArg
    (fun l => match l with | (_, Opt.Hex _) :: _ => true | _ => false) h
  exact absurd h2 (by decide)

/-! ### Claim C7: recursive encapsulated sub-options -/

theorem classifyAll_of_success (M : List (Nat × Bytes))
    (h : ∀ r ∈ M, (classify r.1 r.2).isSome = true) :
    classifyAll M = some (M.map fun r => (r.1, classifyD r.1 r.2)) := by
  induction M with
  | nil => rfl
  | cons r rest ih =>
    unfold classifyAll
    obtain ⟨d, hd⟩ := Option.isSome_iff_exists.mp (h r (List.mem_cons_self ..))
    rw [hd, ih fun x hx => h x (List.mem_cons_of_mem _ hx)]
    simp [classifyD, hd]

theorem serialize_mapped (subs : List (Nat × Opt))
    (h : ∀ e ∈ subs, to_opt e.1 (classifyD e.1 (chunksOf e.2).flatten) = some (e.1, e.2)) :
    Opts.serialize (subs.map fun e => (e.1, classifyD e.1 (chunksOf e.2).flatten)) = subs := by
  induction subs with
  | nil => rfl
  | cons e rest ih =>
    simp only [List.map_cons, Opts.serialize, List.filterMap_cons]
    rw [show to_opt (e.1, classifyD e.1 (chunksOf e.2).flatten).1
        (e.1, classifyD e.1 (chunksOf e.2).flatten).2 = some (e.1, e.2) from
      h e (List.mem_cons_self ..)]
    have := ih fun x hx => h x (List.mem_cons_of_mem _ hx)
    simp only [Opts.serialize] at this
    rw [this]

/-- C7 (amended): the encoder renders an encapsulated sub-option map by
recursively encoding every sub-entry into a nested buffer with the same
encoder and wrapping that nested buffer through the long-option chunk
writer under the outer code; for sub-entries of the explicitly
classified, shape-matching, well-formed kinds (excluding domain lists)
with distinct codes, decoding the nested buffer as an option stream
yields exactly the sub-entries of the map.  For other sub-maps the
decode side of the original claim fails (see the counterexample). -/
theorem claim7_sub_options (buf : Bytes) (code : Nat) (subs : List (Nat × Opt)) (b : Bytes)
    (hw : write_opt buf code (.SubOption subs) = .ok b)
    (hnodup : (subs.map Prod.fst).Nodup)
    (hkinds : ∀ e ∈ subs,
      shapeOk e.1 e.2 = true ∧ optWf e.2 = true ∧ isDomainList e.2 = false) :
    ∃ sub_buf s, write_opts [] subs = .ok sub_buf ∧
      b = encode_long_opt_bytes code sub_buf buf ∧
      dhcpOptionsDecode sub_buf = some s ∧
      (Opts.serialize s).Perm subs := by
  rw [write_opt_chunks] at hw
  cases hsub : write_opts [] subs with
  | error err =>
    rw [show entryChunks (.SubOption subs) =
        (match write_opts [] subs with
         | Except.error e => Except.error e
         | Except.ok sub_buf => Except.ok (chunkList 255 sub_buf) :
           Except EncErr (List Bytes)) from rfl, hsub] at hw
    cases hw
  | ok sub_buf =>
    rw [show entryChunks (.SubOption subs) =
        (match write_opts [] subs with
         | Except.error e => Except.error e
         | Except.ok sub_buf => Except.ok (chunkList 255 sub_buf) :
           Except EncErr (List Bytes)) from rfl, hsub] at hw
    have hb : b = encode_long_opt_bytes code sub_buf buf := by
      have := Except.ok.inj hw
      rw [← this]
      rfl
    have hbounds : ∀ e ∈ subs, 0 < e.1 ∧ e.1 < 255 := fun e he =>
      (entry_roundtrip e.1 e.2 (hkinds e he).1 (hkinds e he).2.1 (hkinds e he).2.2).1
    have hcl_ok : ∀ r ∈ subs.map mergedEntry, (classify r.1 r.2).isSome = true := by
      intro r hr
      obtain ⟨e, he, rfl⟩ := List.mem_map.mp hr
      obtain ⟨-, ps, d, hch, hcl, -⟩ :=
        entry_roundtrip e.1 e.2 (hkinds e he).1 (hkinds e he).2.1 (hkinds e he).2.2
      have hchof : chunksOf e.2 = ps := by simp [chunksOf, hch]
      simp [mergedEntry, hchof, hcl]
    have hparse := (parseRecords_assembled subs sub_buf hbounds hsub).2
    have hmerge := mergeRecs_groups subs (write_opts_ok_entry subs sub_buf hsub) hnodup
    have hdecode : dhcpOptionsDecode sub_buf =
        some (((subs.map mergedEntry).map fun r => (r.1, classifyD r.1 r.2)).foldl
          (fun m e => insertSorted e.1 e.2 m) []) := by
      unfold dhcpOptionsDecode
      rw [hparse]
      simp only [Option.bind_eq_bind, Option.some_bind]
      rw [hmerge, classifyAll_of_success _ hcl_ok]
      simp only [Option.some_bind]
    set E := (subs.map mergedEntry).map fun r => (r.1, classifyD r.1 r.2) with hE
    have hkeys : E.map Prod.fst = subs.map Prod.fst := by
      rw [hE, List.map_map, List.map_map]
      rfl
    have hperm : (E.foldl (fun m e => insertSorted e.1 e.2 m) []).Perm E := by
      have := foldl_insert_perm E [] (by simpa [hkeys] using hnodup)
      simpa using this
    have hser : Opts.serialize E = subs := by
      rw [hE, List.map_map]
      rw [show ((fun r => (r.1, classifyD r.1 r.2)) ∘ mergedEntry) =
        fun e : Nat × Opt => (e.1, classifyD e.1 (chunksOf e.2).flatten) from rfl]
      refine serialize_mapped subs ?_
      intro e he
      obtain ⟨-, ps, d, hch, hcl, hto⟩ :=
        entry_roundtrip e.1 e.2 (hkinds e he).1 (hkinds e he).2.1 (hkinds e he).2.2
      have hchof : chunksOf e.2 = ps := by simp [chunksOf, hch]
      rw [hchof, show classifyD e.1 ps.flatten = d from by simp [classifyD, hcl], hto]
    refine ⟨sub_buf, _, rfl, hb, hdecode, ?_⟩
    rw [← hser]
    exact hperm.filterMap _

/-- Witness for C7 at a two-sub-entry vendor map under code 43. -/
theorem claim7_witness :
    ∃ sub_buf s,
      write_opts [] [(1, Opt.Ip ⟨1, 2, 3, 4⟩), (12, Opt.Str [104])] = .ok sub_buf ∧
      ([43, 9, 1, 4, 1, 2, 3, 4, 12, 1, 104] : Bytes) =
        encode_long_opt_bytes 43 sub_buf [] ∧
      dhcpOptionsDecode sub_buf = some s ∧
      (Opts.serialize s).Perm [(1, Opt.Ip ⟨1, 2, 3, 4⟩), (12, Opt.Str [104])] :=
  claim7_sub_options [] 43 [(1, Opt.Ip ⟨1, 2, 3, 4⟩), (12, Opt.Str [104])]
    [43, 9, 1, 4, 1, 2, 3, 4, 12, 1, 104] rfl (by decide) (by decide)

/-- Counterexample to C7 as stated for every sub-option map: the sub-map
`{1: u8 5}` encodes fine, but decoding its nested buffer errors — code 1
is SubnetMask and its one-byte payload is not a valid address — so no
sub-entries at all come back; and the sub-map `{77: b64 "QUJD"}` decodes
to an unknown-kind entry that normalizes to the hex kind, not to the
authored base64 sub-entry. -/
theorem claim7_counterexample :
    write_opt [] 43 (.SubOption [(1, Opt.U8 5)]) = .ok [43, 3, 1, 1, 5] ∧
    dhcpOptionsDecode [1, 1, 5] = none ∧
    write_opt [] 43 (.SubOption [(77, Opt.B64 [81, 85, 74, 68])]) =
      .ok [43, 5, 77, 3, 65, 66, 67] ∧
    dhcpOptionsDecode [77, 3, 65, 66, 67] =
      some [(77, DhcpOption.Unknown [65, 66, 67])] ∧
    Opts.serialize [(77, DhcpOption.Unknown [65, 66, 67])] =
      [(77, Opt.Hex [52, 49, 52, 50, 52, 51])] ∧
    ([(77, Opt.Hex [52, 49, 52, 50, 52, 51])] : List (Nat × Opt)) ≠
      [(77, Opt.B64 [81, 85, 74, 68])] :=
  ⟨rfl, rfl, rfl, rfl, rfl, fun h => absurd (congrArg (fun l =>
      l.map fun e : Nat × Opt =>
        match e.2 with
        | Opt.B64 _ => 0
        | _ => 1) h) (by decide)⟩

end DoraWire
